import Mathlib

/-!
Verification of the graph model and the instrumented Dijkstra engine of the
ukraine_routes repository (src/app/models/graph.py, src/app/models/dijkstra.py,
src/app/services/path_service.py).

Modelling conventions:
* Python dicts are insertion-ordered association lists (`SDict`): lookup takes
  the first matching key, update rewrites the first occurrence in place, and
  inserting a fresh key appends at the end.  This matches CPython dict
  semantics for the operations the code uses.
* Python floats are modelled by exact integers (every comparison, sum and
  scenario of the specified behavior involves only ordered-ring reasoning,
  and exact arithmetic is the intended reading of the spec); `float("inf")`
  becomes the extra point `DVal.inf` of the `DVal` type.
* The unbounded `while` loops are modelled with an explicit fuel argument
  large enough for every real execution (each loop iteration of the main loop
  marks one more vertex visited, so `|vertices| + 1` rounds suffice; the
  backward walk of the path reconstruction visits pairwise distinct vertices
  on every predecessor map the algorithm produces, so `|previous| + 1` rounds
  suffice there).
* `raise ValueError` in `run_dijkstra` is modelled by `Except String`.
-/

/-- Extended distance values: an exact number or positive infinity,
modelling Python floats together with `float("inf")`. -/
inductive DVal where
  | inf : DVal
  | fin : ℤ → DVal
deriving DecidableEq, Repr

namespace DVal

/-- Strict comparison, as Python `<` on floats with infinity. -/
def ltb : DVal → DVal → Bool
  | .inf, _ => false
  | .fin _, .inf => true
  | .fin a, .fin b => decide (a < b)

/-- Non-strict comparison on extended distances. -/
def leb : DVal → DVal → Bool
  | _, .inf => true
  | .inf, .fin _ => false
  | .fin a, .fin b => decide (a ≤ b)

/-- Adding a (finite) weight to an extended distance, as Python `+`. -/
def add : DVal → ℤ → DVal
  | .inf, _ => .inf
  | .fin a, w => .fin (a + w)

/-- Nonnegativity of an extended distance. -/
def Nonneg : DVal → Prop
  | .inf => True
  | .fin a => 0 ≤ a

instance : DecidablePred Nonneg := fun d => by
  cases d <;> simp [Nonneg] <;> infer_instance

theorem leb_refl (a : DVal) : a.leb a = true := by
  cases a <;> simp [leb]

theorem leb_inf (a : DVal) : a.leb .inf = true := by
  cases a <;> simp [leb]

theorem leb_trans {a b c : DVal} (h1 : a.leb b = true) (h2 : b.leb c = true) :
    a.leb c = true := by
  cases a <;> cases b <;> cases c <;> simp_all [leb] <;> linarith

theorem leb_of_ltb {a b : DVal} (h : a.ltb b = true) : a.leb b = true := by
  cases a <;> cases b <;> simp_all [ltb, leb] <;> linarith

theorem leb_of_not_ltb {a b : DVal} (h : b.ltb a = false) : a.leb b = true := by
  cases a <;> cases b <;> simp_all [ltb, leb] <;> linarith

theorem ltb_trans {a b c : DVal} (h1 : a.ltb b = true) (h2 : b.ltb c = true) :
    a.ltb c = true := by
  cases a <;> cases b <;> cases c <;> simp_all [ltb] <;> linarith

theorem ltb_of_ltb_of_not_ltb {a b c : DVal}
    (h1 : a.ltb b = true) (h2 : c.ltb b = false) : a.ltb c = true := by
  cases a <;> cases b <;> cases c <;> simp_all [ltb] <;> linarith

theorem eq_inf_of_not_ltb_inf {a : DVal} (h : a.ltb .inf = false) : a = .inf := by
  cases a <;> simp_all [ltb]

theorem ne_inf_of_ltb {a b : DVal} (h : a.ltb b = true) : a ≠ .inf := by
  cases a <;> simp_all [ltb]

theorem leb_add_right {a b : DVal} (w : ℤ) (h : a.leb b = true) :
    (a.add w).leb (b.add w) = true := by
  cases a <;> cases b <;> simp_all [leb, add]

theorem leb_add_self {a : DVal} {w : ℤ} (hw : 0 ≤ w) :
    a.leb (a.add w) = true := by
  cases a <;> simp [leb, add] <;> linarith

theorem Nonneg.add {a : DVal} {w : ℤ} (ha : a.Nonneg) (hw : 0 ≤ w) :
    (a.add w).Nonneg := by
  cases a <;> simp_all [Nonneg, DVal.add] <;> linarith

theorem not_ltb_zero_of_nonneg {a : DVal} (ha : a.Nonneg) :
    a.ltb (.fin 0) = false := by
  cases a <;> simp_all [Nonneg, ltb] <;> linarith

theorem add_zero (a : DVal) : a.add 0 = a := by
  cases a <;> simp [add]

theorem add_add (a : DVal) (u v : ℤ) : (a.add u).add v = a.add (u + v) := by
  cases a <;> simp [add] <;> ring

end DVal

/-- A Python dict with string keys, as an insertion-ordered association list. -/
abbrev SDict (α : Type) : Type := List (String × α)

/-- Dict lookup: the value of the first (and in a real dict, only) pair with
the given key. -/
def dictGet {α : Type} : SDict α → String → Option α
  | [], _ => none
  | (k, v) :: rest, key => if k = key then some v else dictGet rest key

/-- Dict update `d[key] = v`: rewrite the first occurrence of the key in
place, or append a fresh pair at the end, as a CPython dict does. -/
def dictSet {α : Type} : SDict α → String → α → SDict α
  | [], key, v => [(key, v)]
  | (k, w) :: rest, key, v =>
      if k = key then (key, v) :: rest else (k, w) :: dictSet rest key v

theorem dictGet_set_self {α : Type} (d : SDict α) (k : String) (v : α) :
    dictGet (dictSet d k v) k = some v := by
  induction d with
  | nil => simp [dictGet, dictSet]
  | cons p rest ih =>
      by_cases h : p.1 = k <;> simp [dictSet, dictGet, h, ih]

theorem dictGet_set_ne {α : Type} (d : SDict α) (k k' : String) (v : α)
    (h : k' ≠ k) : dictGet (dictSet d k v) k' = dictGet d k' := by
  have hk : ¬ k = k' := fun hh => h hh.symm
  induction d with
  | nil => simp [dictGet, dictSet, hk]
  | cons p rest ih =>
      by_cases hpk : p.1 = k
      · simp [dictSet, dictGet, hpk, hk]
      · by_cases hpk' : p.1 = k' <;> simp [dictSet, dictGet, hpk, hpk', ih, h]

theorem dictGet_mem {α : Type} {d : SDict α} {k : String} {v : α}
    (h : dictGet d k = some v) : (k, v) ∈ d := by
  induction d with
  | nil => simp [dictGet] at h
  | cons p rest ih =>
      by_cases hpk : p.1 = k
      · simp [dictGet, hpk] at h
        apply List.mem_cons.mpr
        left
        cases p
        simp_all
      · simp [dictGet, hpk] at h
        exact List.mem_cons_of_mem _ (ih h)

theorem dictGet_of_mem_nodup {α : Type} {d : SDict α} {k : String} {v : α}
    (hmem : (k, v) ∈ d) (hnd : (d.map Prod.fst).Nodup) :
    dictGet d k = some v := by
  induction d with
  | nil => simp at hmem
  | cons p rest ih =>
      simp only [List.map_cons, List.nodup_cons] at hnd
      rcases List.mem_cons.mp hmem with h | h
      · subst h
        simp [dictGet]
      · have hk : p.1 ≠ k := by
          intro hpk
          exact hnd.1 (hpk ▸ (List.mem_map.mpr ⟨(k, v), h, rfl⟩))
        simp [dictGet, hk]
        exact ih h hnd.2

theorem dictGet_isSome_iff {α : Type} (d : SDict α) (k : String) :
    (dictGet d k).isSome = true ↔ k ∈ d.map Prod.fst := by
  induction d with
  | nil => simp [dictGet]
  | cons p rest ih =>
      by_cases hpk : p.1 = k <;> simp [dictGet, hpk, ih]
      exact fun h => (hpk h.symm).elim

/-- A vertex of the graph (src/app/models/graph.py, class Vertex): a name and
a display position. -/
structure Vertex where
  name : String
  x : ℤ
  y : ℤ
deriving DecidableEq, Repr

/-- A directed edge record (src/app/models/graph.py, class Edge). -/
structure Edge where
  source : String
  target : String
  weight : ℤ
deriving DecidableEq, Repr

/-- The graph store (src/app/models/graph.py, class Graph): the vertex dict,
the append-only edge-record list, and the adjacency dict of dicts. -/
structure Graph where
  vertices : SDict Vertex
  edges : List Edge
  adjacency : SDict (SDict ℤ)
deriving DecidableEq, Repr

namespace Graph

/-- The empty graph, as built by `Graph.__init__`. -/
def empty : Graph := ⟨[], [], []⟩

/-- `list(graph.vertices.keys())`: the vertex names in insertion order. -/
def vertKeys (g : Graph) : List String := g.vertices.map Prod.fst

/-- `Graph.neighbors`: the neighbor-to-weight dict of a vertex, or the empty
dict when the vertex is unknown. -/
def neighbors (g : Graph) (name : String) : SDict ℤ :=
  (dictGet g.adjacency name).getD []

/-- `Graph.add_vertex`: a no-op if the name exists, otherwise insert the
vertex and give it an empty adjacency entry (setdefault). -/
def add_vertex (g : Graph) (name : String) (x y : ℤ) : Graph :=
  if (dictGet g.vertices name).isSome then g
  else
    { g with
      vertices := g.vertices ++ [(name, ⟨name, x, y⟩)]
      adjacency :=
        if (dictGet g.adjacency name).isSome then g.adjacency
        else g.adjacency ++ [(name, [])] }

/-- `Graph.add_directed_edge`: reject self-loops, create missing endpoints at
(0,0), append the edge record, and overwrite the adjacency weight. -/
def add_directed_edge (g : Graph) (source target : String) (weight : ℤ) : Graph :=
  if source = target then g
  else
    let g1 := add_vertex g source 0 0
    let g2 := add_vertex g1 target 0 0
    let g3 := { g2 with edges := g2.edges ++ [Edge.mk source target weight] }
    { g3 with
      adjacency :=
        dictSet g3.adjacency source
          (dictSet ((dictGet g3.adjacency source).getD []) target weight) }

/-- `Graph.add_undirected_edge`: the two directed arcs of a road. -/
def add_undirected_edge (g : Graph) (source target : String) (weight : ℤ) : Graph :=
  add_directed_edge (add_directed_edge g source target weight) target source weight

end Graph

/-- Well-formedness of a graph as maintained by the mutation API: vertex
names are unique, the adjacency dict has unique keys all of which are
vertices, and every inner dict has unique keys all of which are vertices. -/
def Graph.Wf (g : Graph) : Prop :=
  g.vertKeys.Nodup ∧ (g.adjacency.map Prod.fst).Nodup ∧
  ∀ p ∈ g.adjacency, p.1 ∈ g.vertKeys ∧ (p.2.map Prod.fst).Nodup ∧
    ∀ q ∈ p.2, q.1 ∈ g.vertKeys

/-- All adjacency weights of the graph are nonnegative. -/
def Graph.NonnegW (g : Graph) : Prop :=
  ∀ p ∈ g.adjacency, ∀ q ∈ p.2, 0 ≤ q.2

instance (g : Graph) : Decidable g.Wf := by unfold Graph.Wf; infer_instance

instance (g : Graph) : Decidable g.NonnegW := by
  unfold Graph.NonnegW; infer_instance

/-- One visualization step of the algorithm (src/app/models/dijkstra.py,
class Step): the expanded vertex, the examined neighbor (or none), the
improved distance (or none), and full copies of the distance dict and of the
visited sequence at that instant. -/
structure Step where
  current : String
  neighbor : Option String
  new_distance : Option DVal
  distances : SDict DVal
  visited : List String
deriving DecidableEq, Repr

/-- The algorithm result (src/app/models/dijkstra.py, class DijkstraResult).
`total` is `none` when Python stores `None`; a non-`none` total carries the
(extended) float `distances[target]`. -/
structure DijkstraResult where
  distances : SDict DVal
  previous : SDict (Option String)
  path : List String
  total : Option DVal
  steps : List Step
deriving DecidableEq, Repr

/-- The mutable local state of `run_dijkstra` between loop iterations. -/
structure DState where
  distances : SDict DVal
  previous : SDict (Option String)
  visited : List String
  steps : List Step
deriving DecidableEq, Repr

/-- `distances[v]` where the key is always present in real executions; the
default `inf` is never reached under the well-formedness invariants. -/
def dget (d : SDict DVal) (v : String) : DVal :=
  (dictGet d v).getD .inf

/-- The scan `for v in vertices: ...` that finds the unvisited vertex of
minimal distance, carrying the running best value and candidate
(`current_dist` and `current` in the source). -/
def selectMinAux (vis : List String) (D : SDict DVal) :
    List String → DVal → Option String → Option String
  | [], _, cand => cand
  | v :: rest, best, cand =>
      if v ∈ vis then selectMinAux vis D rest best cand
      else if (dget D v).ltb best then selectMinAux vis D rest (dget D v) (some v)
      else selectMinAux vis D rest best cand

/-- The minimum-selection phase of one loop iteration of `run_dijkstra`:
starts from `current = None`, `current_dist = INF`. -/
def selectMin (keys : List String) (vis : List String) (D : SDict DVal) :
    Option String :=
  selectMinAux vis D keys .inf none

/-- One pass of the relaxation body for a single `(neighbor, weight)` pair of
`graph.neighbors(current).items()`. -/
def relaxOne (current : String) (st : DState) (q : String × ℤ) : DState :=
  if q.1 ∈ st.visited then st
  else
    let alt := (dget st.distances current).add q.2
    if alt.ltb (dget st.distances q.1) then
      let D2 := dictSet st.distances q.1 alt
      { st with
        distances := D2
        previous := dictSet st.previous q.1 (some current)
        steps := st.steps ++ [⟨current, some q.1, some alt, D2, st.visited⟩] }
    else
      { st with
        steps := st.steps ++ [⟨current, some q.1, none, st.distances, st.visited⟩] }

/-- The relaxation loop over all neighbors of the current vertex. -/
def relaxAll (current : String) (st : DState) : List (String × ℤ) → DState
  | [] => st
  | q :: rest => relaxAll current (relaxOne current st q) rest

/-- The main `while len(visited) < len(vertices)` loop of `run_dijkstra`,
with explicit fuel; `|vertices| + 1` rounds of fuel make the fuel-out case
unreachable because every iteration grows `visited` by one vertex. -/
def dijkstraLoop (g : Graph) (target : Option String) :
    Nat → DState → DState
  | 0, st => st
  | fuel + 1, st =>
      if st.visited.length < g.vertKeys.length then
        match selectMin g.vertKeys st.visited st.distances with
        | none => st
        | some current =>
            let st1 := { st with visited := st.visited ++ [current] }
            if target = some current then
              { st1 with
                steps := st1.steps ++
                  [⟨current, none, none, st1.distances, st1.visited⟩] }
            else
              dijkstraLoop g target fuel (relaxAll current st1 (g.neighbors current))
      else st

/-- The initial distance dict: `INF` for every vertex, then `0.0` at the
source. -/
def initD (keys : List String) (source : String) : SDict DVal :=
  dictSet (keys.map fun v => (v, DVal.inf)) source (.fin 0)

/-- The initial predecessor dict: `None` for every vertex. -/
def initP (keys : List String) : SDict (Option String) :=
  keys.map fun v => (v, (none : Option String))

/-- The backward walk of `_reconstruct_path`: follow `previous` from the
target, appending each vertex, and stop on reaching the source or a missing
predecessor.  Fuel replaces the unbounded `while`; on the acyclic
predecessor maps the algorithm produces the walk stops on its own. -/
def reconstructAux (P : SDict (Option String)) (source : String) :
    Nat → String → List String → List String
  | 0, _, acc => acc
  | fuel + 1, current, acc =>
      let acc2 := acc ++ [current]
      if current = source then acc2
      else
        match dictGet P current with
        | some (some nxt) => reconstructAux P source fuel nxt acc2
        | _ => acc2

/-- `_reconstruct_path` (src/app/models/dijkstra.py): the backward walk,
rejected unless it ended at the source, then reversed. -/
def reconstruct_path (P : SDict (Option String)) (source target : String) :
    List String :=
  let walk := reconstructAux P source (P.length + 1) target []
  if walk.getLast? = some source then walk.reverse else []

/-- The state of `run_dijkstra` right after initialization. -/
def initState (g : Graph) (source : String) : DState :=
  { distances := initD g.vertKeys source
    previous := initP g.vertKeys
    visited := []
    steps := [] }

/-- The body of `run_dijkstra` after the source-existence check:
initialization, main loop, and path reconstruction. -/
def dijkstraCore (g : Graph) (source : String) (target : Option String) :
    DijkstraResult :=
  let keys := g.vertKeys
  let stF := dijkstraLoop g target (keys.length + 1) (initState g source)
  match target with
  | some t =>
      let path := reconstruct_path stF.previous source t
      { distances := stF.distances
        previous := stF.previous
        path := path
        total := if path = [] then none else some (dget stF.distances t)
        steps := stF.steps }
  | none =>
      { distances := stF.distances
        previous := stF.previous
        path := []
        total := none
        steps := stF.steps }

/-- `run_dijkstra` (src/app/models/dijkstra.py): raises `ValueError` (the
VertexNotFound-kind failure, modelled as `Except.error`) when the source is
not a known vertex, otherwise runs the engine. -/
def run_dijkstra (g : Graph) (source : String) (target : Option String) :
    Except String DijkstraResult :=
  if source ∈ g.vertKeys then .ok (dijkstraCore g source target)
  else .error ("source vertex not in graph: " ++ source)

/-- `PathService.find_shortest_path` (src/app/services/path_service.py):
returns `none` when either endpoint is unknown, special-cases
`source == target` by overriding `path` and `total` after calling the
engine.  The wall-clock `time_ms` side channel is not part of the model. -/
def find_shortest_path (g : Graph) (source target : String) :
    Option DijkstraResult :=
  if (dictGet g.vertices source).isSome && (dictGet g.vertices target).isSome then
    if source = target then
      let r := dijkstraCore g source (some target)
      some { r with path := [source], total := some (.fin 0) }
    else
      some (dijkstraCore g source (some target))
  else none

/-- The graph has the directed arc `u -> v` in its adjacency map. -/
def hasArc (g : Graph) (u v : String) : Bool :=
  (dictGet (g.neighbors u) v).isSome

/-- Graph-theoretic reachability along adjacency arcs. -/
inductive Reachable (g : Graph) : String → String → Prop where
  | refl (s : String) : Reachable g s s
  | head {u v t : String} : hasArc g u v = true → Reachable g v t →
      Reachable g u t

/-- The adjacency weight of the arc `u -> v` (0 when absent; every use in
the theorems is on genuine arcs). -/
def wgt (g : Graph) (u v : String) : ℤ :=
  (dictGet (g.neighbors u) v).getD 0

/-- The summed weight of the consecutive arcs of a path. -/
def pathWeight (g : Graph) : List String → ℤ
  | a :: b :: rest => wgt g a b + pathWeight g (b :: rest)
  | _ => 0

namespace Graph

theorem add_vertex_edges (g : Graph) (n : String) (x y : ℤ) :
    (g.add_vertex n x y).edges = g.edges := by
  unfold add_vertex
  split <;> rfl

theorem add_directed_edge_edges (g : Graph) {s t : String} (w : ℤ)
    (h : s ≠ t) :
    (g.add_directed_edge s t w).edges = g.edges ++ [Edge.mk s t w] := by
  unfold add_directed_edge
  rw [if_neg h]
  simp [add_vertex_edges]

theorem dictGet_neighbors_add (g : Graph) {s t : String} (w : ℤ)
    (h : s ≠ t) :
    dictGet ((g.add_directed_edge s t w).neighbors s) t = some w := by
  unfold add_directed_edge neighbors
  rw [if_neg h]
  simp only [dictGet_set_self, Option.getD_some]

end Graph

/-- C8: for every graph and distinct vertices A and B, adding the arc
(A,B,5) and then the arc (A,B,3) leaves the adjacency weight
`Neighbors(A)[B] == 3` (last write wins), while the edge-record list keeps
both the weight-5 and the weight-3 historical entries. -/
theorem claim_C8 (g : Graph) (A B : String) (hne : A ≠ B) :
    dictGet (((g.add_directed_edge A B 5).add_directed_edge A B 3).neighbors A) B
        = some 3 ∧
    Edge.mk A B 5 ∈ ((g.add_directed_edge A B 5).add_directed_edge A B 3).edges ∧
    Edge.mk A B 3 ∈ ((g.add_directed_edge A B 5).add_directed_edge A B 3).edges := by
  refine ⟨Graph.dictGet_neighbors_add _ _ hne, ?_, ?_⟩ <;>
    simp [Graph.add_directed_edge_edges _ _ hne]

theorem claim_C8_witness :
    ("A" : String) ≠ "B" ∧
    (dictGet (((Graph.empty.add_directed_edge "A" "B" 5).add_directed_edge
        "A" "B" 3).neighbors "A") "B" = some 3 ∧
      Edge.mk "A" "B" 5 ∈
        ((Graph.empty.add_directed_edge "A" "B" 5).add_directed_edge "A" "B" 3).edges ∧
      Edge.mk "A" "B" 3 ∈
        ((Graph.empty.add_directed_edge "A" "B" 5).add_directed_edge "A" "B" 3).edges) :=
  ⟨by decide, claim_C8 Graph.empty "A" "B" (by decide)⟩

/-- C4: on a well-formed graph, `run_dijkstra` fails (with the
VertexNotFound-kind `ValueError`, modelled as `Except.error`) exactly when
the source is not a known vertex; an unknown or unreachable target never
makes it fail, and the failure is a returned value of the call, not a
process-level condition.  Well-formedness delimits the scope of the claim:
on a graph whose adjacency mentions a non-vertex, the Python code could
instead die with a `KeyError` inside the relaxation loop, a state the
mutation API never produces. -/
theorem claim_C4 (g : Graph) (source : String) (target : Option String)
    (hWf : g.Wf) :
    (∃ e, run_dijkstra g source target = Except.error e) ↔
      source ∉ g.vertKeys := by
  unfold run_dijkstra
  by_cases h : source ∈ g.vertKeys <;> simp [h]

theorem claim_C4_witness :
    (Graph.empty.add_vertex "A" 0 0).Wf ∧
    ((∃ e, run_dijkstra (Graph.empty.add_vertex "A" 0 0) "B" none
        = Except.error e) ↔
      "B" ∉ (Graph.empty.add_vertex "A" 0 0).vertKeys) :=
  ⟨by decide, claim_C4 (Graph.empty.add_vertex "A" 0 0) "B" none (by decide)⟩

theorem dget_map_inf (keys : List String) (v : String) :
    dget (keys.map fun k => (k, DVal.inf)) v = .inf := by
  induction keys with
  | nil => rfl
  | cons k rest ih =>
      by_cases hk : k = v <;> simp [dget, dictGet, hk] <;> simpa [dget] using ih

theorem dget_initD (keys : List String) (s v : String) :
    dget (initD keys s) v = if v = s then .fin 0 else .inf := by
  by_cases h : v = s
  · subst h
    simp [dget, initD, dictGet_set_self]
  · simp only [dget, initD, dictGet_set_ne _ _ _ _ h, if_neg h]
    exact dget_map_inf keys v

theorem dictGet_initP (keys : List String) (v : String) :
    dictGet (initP keys) v = some none ∨ dictGet (initP keys) v = none := by
  unfold initP
  induction keys with
  | nil => right; rfl
  | cons k rest ih =>
      by_cases hk : k = v <;> simp [dictGet, hk] <;> exact ih

theorem selectMinAux_no_improve (vis : List String) (D : SDict DVal) :
    ∀ (keys : List String) (best : DVal) (cand : Option String),
      (∀ v ∈ keys, v ∉ vis → (dget D v).ltb best = false) →
      selectMinAux vis D keys best cand = cand := by
  intro keys
  induction keys with
  | nil => intro best cand _; rfl
  | cons k rest ih =>
      intro best cand h
      by_cases hk : k ∈ vis
      · simp only [selectMinAux, if_pos hk]
        exact ih best cand fun v hv hnv => h v (List.mem_cons_of_mem _ hv) hnv
      · have hlt : (dget D k).ltb best = false := h k (List.mem_cons_self _ _) hk
        simp only [selectMinAux, if_neg hk, hlt, Bool.false_eq_true, if_false]
        exact ih best cand fun v hv hnv => h v (List.mem_cons_of_mem _ hv) hnv

theorem selectMinAux_init (keys : List String) (s : String) (D : SDict DVal)
    (hD : ∀ v, dget D v = if v = s then .fin 0 else .inf) :
    ∀ _ : s ∈ keys, selectMinAux [] D keys .inf none = some s := by
  induction keys with
  | nil => intro hs; cases hs
  | cons k rest ih =>
      intro hs
      rw [selectMinAux, if_neg (List.not_mem_nil k)]
      by_cases hk : k = s
      · subst hk
        have h0 : dget D k = DVal.fin 0 := by rw [hD]; simp
        rw [h0]
        have hlt : (DVal.fin 0).ltb .inf = true := rfl
        rw [hlt, if_pos rfl]
        apply selectMinAux_no_improve
        intro v _ _
        rw [hD v]
        by_cases hv : v = k <;> simp [hv, DVal.ltb]
      · have hinf : dget D k = DVal.inf := by rw [hD]; simp [hk]
        rw [hinf]
        have hlt : DVal.inf.ltb .inf = false := rfl
        rw [hlt]
        simp only [Bool.false_eq_true, if_false]
        apply ih
        rcases List.mem_cons.mp hs with h | h
        · exact absurd h.symm hk
        · exact h

/-- Running the engine with `target == source`: the source is selected first
(it is the only vertex at finite distance), the target check fires at once,
and the run ends after a single terminal step. -/
theorem core_self (g : Graph) (s : String) (hs : s ∈ g.vertKeys) :
    dijkstraCore g s (some s) =
      { distances := initD g.vertKeys s
        previous := initP g.vertKeys
        path := [s]
        total := some (.fin 0)
        steps := [⟨s, none, none, initD g.vertKeys s, [s]⟩] } := by
  have hlen : 0 < g.vertKeys.length :=
    List.length_pos.mpr (List.ne_nil_of_mem hs)
  have hsel : selectMin g.vertKeys [] (initD g.vertKeys s) = some s :=
    selectMinAux_init _ s _ (fun v => dget_initD _ s v) hs
  have hloop : dijkstraLoop g (some s) (g.vertKeys.length + 1)
      (initState g s) =
      { distances := initD g.vertKeys s, previous := initP g.vertKeys,
        visited := [s],
        steps := [⟨s, none, none, initD g.vertKeys s, [s]⟩] } := by
    rw [dijkstraLoop]
    simp [hlen, hsel, initState]
  have hrec : reconstruct_path (initP g.vertKeys) s s = [s] := by
    unfold reconstruct_path
    rw [reconstructAux]
    simp
  simp only [dijkstraCore, hloop, hrec]
  simp [dget_initD]

/-- C9: calling the engine alone with `target == source` already returns
`path = [source]`, `total = 0.0`, and a trace of exactly one terminal Step
(current = source, neighbor = none, new_distance = none, visited =
[source]); the override in `find_shortest_path` therefore leaves `path` and
`total` unchanged, so the facade returns the engine result as is. -/
theorem claim_C9 (g : Graph) (s : String) (hs : s ∈ g.vertKeys) :
    (dijkstraCore g s (some s)).path = [s] ∧
    (dijkstraCore g s (some s)).total = some (.fin 0) ∧
    (dijkstraCore g s (some s)).steps =
      [⟨s, none, none, (dijkstraCore g s (some s)).distances, [s]⟩] ∧
    find_shortest_path g s s = some (dijkstraCore g s (some s)) := by
  have h := core_self g s hs
  have hv : (dictGet g.vertices s).isSome = true :=
    (dictGet_isSome_iff _ _).mpr hs
  refine ⟨by rw [h], by rw [h], by rw [h], ?_⟩
  unfold find_shortest_path
  simp [hv, h]

theorem claim_C9_witness :
    "K" ∈ (Graph.empty.add_vertex "K" 1 2).vertKeys ∧
    ((dijkstraCore (Graph.empty.add_vertex "K" 1 2) "K" (some "K")).path = ["K"] ∧
      (dijkstraCore (Graph.empty.add_vertex "K" 1 2) "K" (some "K")).total
        = some (.fin 0) ∧
      (dijkstraCore (Graph.empty.add_vertex "K" 1 2) "K" (some "K")).steps =
        [⟨"K", none, none,
          (dijkstraCore (Graph.empty.add_vertex "K" 1 2) "K" (some "K")).distances,
          ["K"]⟩] ∧
      find_shortest_path (Graph.empty.add_vertex "K" 1 2) "K" "K" =
        some (dijkstraCore (Graph.empty.add_vertex "K" 1 2) "K" (some "K"))) :=
  ⟨by decide, claim_C9 (Graph.empty.add_vertex "K" 1 2) "K" (by decide)⟩

/-- C7: for every graph containing the endpoint, `find_shortest_path` with
`source == target` returns a result with `path = [source]` and `total = 0`,
and the engine is still invoked, producing a non-empty step trace. -/
theorem claim_C7 (g : Graph) (s : String) (hs : s ∈ g.vertKeys) :
    ∃ r, find_shortest_path g s s = some r ∧ r.path = [s] ∧
      r.total = some (.fin 0) ∧ r.steps ≠ [] := by
  have h := core_self g s hs
  have hv : (dictGet g.vertices s).isSome = true :=
    (dictGet_isSome_iff _ _).mpr hs
  refine ⟨dijkstraCore g s (some s), ?_, by rw [h], by rw [h], by rw [h]; simp⟩
  unfold find_shortest_path
  simp [hv, h]

theorem claim_C7_witness :
    "K" ∈ (Graph.empty.add_vertex "K" 1 2).vertKeys ∧
    ∃ r, find_shortest_path (Graph.empty.add_vertex "K" 1 2) "K" "K" = some r ∧
      r.path = ["K"] ∧ r.total = some (.fin 0) ∧ r.steps ≠ [] :=
  ⟨by decide, claim_C7 (Graph.empty.add_vertex "K" 1 2) "K" (by decide)⟩

theorem selectMinAux_isSome (vis : List String) (D : SDict DVal) :
    ∀ (keys : List String) (best : DVal) (x : String),
      (selectMinAux vis D keys best (some x)).isSome = true := by
  intro keys
  induction keys with
  | nil => intro best x; rfl
  | cons k rest ih =>
      intro best x
      rw [selectMinAux]
      by_cases hk : k ∈ vis
      · rw [if_pos hk]; exact ih best x
      · rw [if_neg hk]
        by_cases hlt : (dget D k).ltb best = true
        · rw [if_pos hlt]; exact ih (dget D k) k
        · rw [if_neg hlt]; exact ih best x

theorem selectMinAux_none (vis : List String) (D : SDict DVal) :
    ∀ (keys : List String) (best : DVal) (cand : Option String),
      selectMinAux vis D keys best cand = none →
      ∀ v ∈ keys, v ∉ vis → (dget D v).ltb best = false := by
  intro keys
  induction keys with
  | nil => intro best cand _ v hv; cases hv
  | cons k rest ih =>
      intro best cand h v hv hnv
      rw [selectMinAux] at h
      by_cases hk : k ∈ vis
      · rw [if_pos hk] at h
        rcases List.mem_cons.mp hv with rfl | hv'
        · exact absurd hk hnv
        · exact ih best cand h v hv' hnv
      · rw [if_neg hk] at h
        by_cases hlt : (dget D k).ltb best = true
        · rw [if_pos hlt] at h
          have := selectMinAux_isSome vis D rest (dget D k) k
          rw [h] at this
          cases this
        · rw [if_neg hlt] at h
          rcases List.mem_cons.mp hv with rfl | hv'
          · exact Bool.not_eq_true _ ▸ Bool.of_not_eq_true hlt
          · exact ih best cand h v hv' hnv

theorem selectMinAux_some (vis : List String) (D : SDict DVal) :
    ∀ (keys : List String) (best : DVal) (cand : Option String) (c : String),
      selectMinAux vis D keys best cand = some c →
      (cand = some c ∧ ∀ v ∈ keys, v ∉ vis → (dget D v).ltb best = false) ∨
      (∃ as bs, keys = as ++ c :: bs ∧ c ∉ vis ∧ (dget D c).ltb best = true ∧
        (∀ v ∈ as, v ∉ vis → (dget D c).ltb (dget D v) = true) ∧
        (∀ v ∈ bs, v ∉ vis → (dget D v).ltb (dget D c) = false)) := by
  intro keys
  induction keys with
  | nil =>
      intro best cand c h
      exact Or.inl ⟨h, by intro v hv; cases hv⟩
  | cons k rest ih =>
      intro best cand c h
      rw [selectMinAux] at h
      by_cases hk : k ∈ vis
      · rw [if_pos hk] at h
        rcases ih best cand c h with ⟨hc, hrest⟩ | ⟨as, bs, heq, hcv, hcb, has, hbs⟩
        · refine Or.inl ⟨hc, ?_⟩
          intro v hv hnv
          rcases List.mem_cons.mp hv with rfl | hv'
          · exact absurd hk hnv
          · exact hrest v hv' hnv
        · refine Or.inr ⟨k :: as, bs, by rw [heq, List.cons_append], hcv, hcb, ?_, hbs⟩
          intro v hv hnv
          rcases List.mem_cons.mp hv with rfl | hv'
          · exact absurd hk hnv
          · exact has v hv' hnv
      · rw [if_neg hk] at h
        by_cases hlt : (dget D k).ltb best = true
        · rw [if_pos hlt] at h
          rcases ih (dget D k) (some k) c h with
            ⟨hc, hrest⟩ | ⟨as, bs, heq, hcv, hcb, has, hbs⟩
          · obtain rfl : k = c := Option.some_inj.mp hc
            refine Or.inr ⟨[], rest, rfl, hk, hlt, ?_, hrest⟩
            intro v hv
            cases hv
          · refine Or.inr ⟨k :: as, bs, by rw [heq, List.cons_append],
              hcv, DVal.ltb_trans hcb hlt, ?_, hbs⟩
            intro v hv hnv
            rcases List.mem_cons.mp hv with rfl | hv'
            · exact hcb
            · exact has v hv' hnv
        · rw [if_neg hlt] at h
          have hltf : (dget D k).ltb best = false := Bool.of_not_eq_true hlt
          rcases ih best cand c h with
            ⟨hc, hrest⟩ | ⟨as, bs, heq, hcv, hcb, has, hbs⟩
          · refine Or.inl ⟨hc, ?_⟩
            intro v hv hnv
            rcases List.mem_cons.mp hv with rfl | hv'
            · exact hltf
            · exact hrest v hv' hnv
          · refine Or.inr ⟨k :: as, bs, by rw [heq, List.cons_append],
              hcv, hcb, ?_, hbs⟩
            intro v hv hnv
            rcases List.mem_cons.mp hv with rfl | hv'
            · exact DVal.ltb_of_ltb_of_not_ltb hcb hltf
            · exact has v hv' hnv

/-- The full characterization of the minimum-selection scan when it returns
a vertex: the vertex splits the key list, is unvisited and at finite
distance, is strictly smaller than every unvisited vertex before it, and no
unvisited vertex after it is strictly smaller. -/
theorem selectMin_some_char {keys vis : List String} {D : SDict DVal}
    {c : String} (h : selectMin keys vis D = some c) :
    ∃ as bs, keys = as ++ c :: bs ∧ c ∉ vis ∧ dget D c ≠ .inf ∧
      (∀ v ∈ as, v ∉ vis → (dget D c).ltb (dget D v) = true) ∧
      (∀ v ∈ bs, v ∉ vis → (dget D v).ltb (dget D c) = false) := by
  rcases selectMinAux_some vis D keys .inf none c h with ⟨hc, _⟩ | hc
  · cases hc
  · obtain ⟨as, bs, heq, hcv, hcb, has, hbs⟩ := hc
    exact ⟨as, bs, heq, hcv, DVal.ne_inf_of_ltb hcb, has, hbs⟩

/-- When the scan returns nothing, every unvisited vertex is at infinite
distance. -/
theorem selectMin_none_char {keys vis : List String} {D : SDict DVal}
    (h : selectMin keys vis D = none) :
    ∀ v ∈ keys, v ∉ vis → dget D v = .inf := by
  intro v hv hnv
  exact DVal.eq_inf_of_not_ltb_inf
    (selectMinAux_none vis D keys .inf none h v hv hnv)

theorem selectMin_mem {keys vis : List String} {D : SDict DVal} {c : String}
    (h : selectMin keys vis D = some c) : c ∈ keys := by
  obtain ⟨as, bs, heq, _⟩ := selectMin_some_char h
  rw [heq]
  exact List.mem_append_right _ (List.mem_cons_self _ _)

theorem selectMin_not_vis {keys vis : List String} {D : SDict DVal} {c : String}
    (h : selectMin keys vis D = some c) : c ∉ vis :=
  (selectMin_some_char h).choose_spec.choose_spec.2.1

theorem selectMin_min {keys vis : List String} {D : SDict DVal} {c : String}
    (h : selectMin keys vis D = some c) :
    ∀ v ∈ keys, v ∉ vis → (dget D c).leb (dget D v) = true := by
  obtain ⟨as, bs, heq, _, _, has, hbs⟩ := selectMin_some_char h
  intro v hv hnv
  rw [heq] at hv
  rcases List.mem_append.mp hv with hv' | hv'
  · exact DVal.leb_of_ltb (has v hv' hnv)
  · rcases List.mem_cons.mp hv' with rfl | hv''
    · exact DVal.leb_refl _
    · exact DVal.leb_of_not_ltb (hbs v hv'' hnv)

theorem relaxOne_visited (c : String) (st : DState) (q : String × ℤ) :
    (relaxOne c st q).visited = st.visited := by
  unfold relaxOne
  split
  · rfl
  · dsimp only
    split <;> rfl

theorem relaxAll_visited (c : String) :
    ∀ (L : List (String × ℤ)) (st : DState),
      (relaxAll c st L).visited = st.visited := by
  intro L
  induction L with
  | nil => intro st; rfl
  | cons q rest ih =>
      intro st
      rw [relaxAll, ih, relaxOne_visited]

theorem dijkstraLoop_visited_extends (g : Graph) (tgt : Option String) :
    ∀ (fuel : Nat) (st : DState),
      ∃ ext, (dijkstraLoop g tgt fuel st).visited = st.visited ++ ext := by
  intro fuel
  induction fuel with
  | zero => intro st; exact ⟨[], by simp [dijkstraLoop]⟩
  | succ n ih =>
      intro st
      rw [dijkstraLoop]
      by_cases hc : st.visited.length < g.vertKeys.length
      · rw [if_pos hc]
        rcases hsel : selectMin g.vertKeys st.visited st.distances with _ | c
        · exact ⟨[], by simp⟩
        · simp only []
          by_cases ht : tgt = some c
          · rw [if_pos ht]
            exact ⟨[c], rfl⟩
          · rw [if_neg ht]
            obtain ⟨ext, hext⟩ :=
              ih (relaxAll c { st with visited := st.visited ++ [c] }
                (g.neighbors c))
            rw [hext, relaxAll_visited]
            exact ⟨c :: ext, by simp⟩
      · rw [if_neg hc]
        exact ⟨[], by simp⟩

/-- C2: whenever the main loop of `run_dijkstra` runs another iteration
(`len(visited) < len(vertices)`), the selection scan picks precisely the
first vertex in the graph insertion order among the unvisited vertices of
minimal tentative distance; that distance is finite (an infinite-distance
vertex is never selected), the selected vertex is strictly better than every
unvisited vertex before it and no later unvisited vertex beats it, and the
loop appends exactly this vertex to the visited order (so the visited
snapshots of the trace list the vertices in selection order).  When no
unvisited vertex has finite distance the scan returns nothing and the loop
terminates with the state unchanged. -/
theorem claim_C2 (g : Graph) (tgt : Option String) (fuel : Nat) (st : DState)
    (hcond : st.visited.length < g.vertKeys.length) :
    (match selectMin g.vertKeys st.visited st.distances with
     | some c =>
        (∃ as bs, g.vertKeys = as ++ c :: bs ∧ c ∉ st.visited ∧
          dget st.distances c ≠ .inf ∧
          (∀ v ∈ as, v ∉ st.visited →
            (dget st.distances c).ltb (dget st.distances v) = true) ∧
          (∀ v ∈ g.vertKeys, v ∉ st.visited →
            (dget st.distances c).leb (dget st.distances v) = true)) ∧
        ∃ ext, (dijkstraLoop g tgt (fuel + 1) st).visited =
          st.visited ++ c :: ext
     | none =>
        (∀ v ∈ g.vertKeys, v ∉ st.visited → dget st.distances v = .inf) ∧
        dijkstraLoop g tgt (fuel + 1) st = st) := by
  rcases hsel : selectMin g.vertKeys st.visited st.distances with _ | c
  · simp only []
    refine ⟨selectMin_none_char hsel, ?_⟩
    rw [dijkstraLoop, if_pos hcond, hsel]
  · simp only []
    constructor
    · obtain ⟨as, bs, heq, hcv, hfin, has, _⟩ := selectMin_some_char hsel
      exact ⟨as, bs, heq, hcv, hfin, has, selectMin_min hsel⟩
    · rw [dijkstraLoop, if_pos hcond, hsel]
      dsimp only
      by_cases ht : tgt = some c
      · rw [if_pos ht]
        exact ⟨[], rfl⟩
      · rw [if_neg ht]
        obtain ⟨ext, hext⟩ := dijkstraLoop_visited_extends g tgt fuel
          (relaxAll c { st with visited := st.visited ++ [c] } (g.neighbors c))
        rw [hext, relaxAll_visited]
        exact ⟨ext, by simp⟩

/-- A concrete loop state for the C2 witness: the initial state of a run of
the two-vertex graph A -> B. -/
def stC2 : DState :=
  { distances := initD (Graph.empty.add_directed_edge "A" "B" 2).vertKeys "A"
    previous := initP (Graph.empty.add_directed_edge "A" "B" 2).vertKeys
    visited := []
    steps := [] }

theorem claim_C2_witness :
    stC2.visited.length <
      (Graph.empty.add_directed_edge "A" "B" 2).vertKeys.length ∧
    (match selectMin (Graph.empty.add_directed_edge "A" "B" 2).vertKeys
        stC2.visited stC2.distances with
     | some c =>
        (∃ as bs, (Graph.empty.add_directed_edge "A" "B" 2).vertKeys =
            as ++ c :: bs ∧ c ∉ stC2.visited ∧
          dget stC2.distances c ≠ .inf ∧
          (∀ v ∈ as, v ∉ stC2.visited →
            (dget stC2.distances c).ltb (dget stC2.distances v) = true) ∧
          (∀ v ∈ (Graph.empty.add_directed_edge "A" "B" 2).vertKeys,
            v ∉ stC2.visited →
            (dget stC2.distances c).leb (dget stC2.distances v) = true)) ∧
        ∃ ext, (dijkstraLoop (Graph.empty.add_directed_edge "A" "B" 2) none
          (2 + 1) stC2).visited = stC2.visited ++ c :: ext
     | none =>
        (∀ v ∈ (Graph.empty.add_directed_edge "A" "B" 2).vertKeys,
          v ∉ stC2.visited → dget stC2.distances v = .inf) ∧
        dijkstraLoop (Graph.empty.add_directed_edge "A" "B" 2) none
          (2 + 1) stC2 = stC2) :=
  ⟨by decide, claim_C2 (Graph.empty.add_directed_edge "A" "B" 2) none 2 stC2
    (by decide)⟩

theorem relaxOne_steps (c : String) (st : DState) (q : String × ℤ) :
    ∃ new, (relaxOne c st q).steps = st.steps ++ new ∧
      ∀ x ∈ new, x.current = c := by
  unfold relaxOne
  split
  · exact ⟨[], by simp⟩
  · dsimp only
    split
    · refine ⟨[⟨c, some q.1, some ((dget st.distances c).add q.2),
        dictSet st.distances q.1 ((dget st.distances c).add q.2),
        st.visited⟩], rfl, ?_⟩
      intro x hx
      rcases List.mem_singleton.mp hx with rfl
      rfl
    · refine ⟨[⟨c, some q.1, none, st.distances, st.visited⟩], rfl, ?_⟩
      intro x hx
      rcases List.mem_singleton.mp hx with rfl
      rfl

theorem relaxAll_steps (c : String) :
    ∀ (L : List (String × ℤ)) (st : DState),
      ∃ new, (relaxAll c st L).steps = st.steps ++ new ∧
        ∀ x ∈ new, x.current = c := by
  intro L
  induction L with
  | nil => intro st; exact ⟨[], by simp [relaxAll]⟩
  | cons q rest ih =>
      intro st
      rw [relaxAll]
      obtain ⟨n1, h1, hc1⟩ := relaxOne_steps c st q
      obtain ⟨n2, h2, hc2⟩ := ih (relaxOne c st q)
      refine ⟨n1 ++ n2, by rw [h2, h1, List.append_assoc], ?_⟩
      intro x hx
      rcases List.mem_append.mp hx with hx' | hx'
      · exact hc1 x hx'
      · exact hc2 x hx'

/-- If the target has not been expanded yet, the rest of the loop either
never expands it, or ends at the exact moment it is selected: one terminal
step is appended with full snapshots of the final distances and visited
sequence, the target closes the visited order, and no other step of the
whole trace expands the target. -/
theorem dijkstraLoop_target_hit (g : Graph) (t : String) :
    ∀ (fuel : Nat) (st : DState),
      t ∉ st.visited → (∀ x ∈ st.steps, x.current ≠ t) →
      ((∀ x ∈ (dijkstraLoop g (some t) fuel st).steps, x.current ≠ t) ∧
        t ∉ (dijkstraLoop g (some t) fuel st).visited) ∨
      (∃ pre, (dijkstraLoop g (some t) fuel st).steps = pre ++
          [⟨t, none, none, (dijkstraLoop g (some t) fuel st).distances,
            (dijkstraLoop g (some t) fuel st).visited⟩] ∧
        (∀ x ∈ pre, x.current ≠ t) ∧
        (dijkstraLoop g (some t) fuel st).visited.getLast? = some t) := by
  intro fuel
  induction fuel with
  | zero => intro st hv hs; exact Or.inl ⟨hs, hv⟩
  | succ n ih =>
      intro st hv hs
      rw [dijkstraLoop]
      by_cases hc : st.visited.length < g.vertKeys.length
      · rw [if_pos hc]
        rcases hsel : selectMin g.vertKeys st.visited st.distances with _ | c
        · exact Or.inl ⟨hs, hv⟩
        · dsimp only
          by_cases hct : c = t
          · subst hct
            rw [if_pos rfl]
            refine Or.inr ⟨st.steps, rfl, hs, ?_⟩
            simp
          · rw [if_neg (fun hh => hct (Option.some_inj.mp hh).symm)]
            apply ih
            · rw [relaxAll_visited]
              intro hmem
              rcases List.mem_append.mp hmem with h' | h'
              · exact hv h'
              · exact hct (List.mem_singleton.mp h').symm
            · obtain ⟨new, hnew, hcnew⟩ := relaxAll_steps c (g.neighbors c)
                { st with visited := st.visited ++ [c] }
              rw [hnew]
              intro x hx
              rcases List.mem_append.mp hx with h' | h'
              · exact hs x h'
              · rw [hcnew x h']
                exact hct
      · rw [if_neg hc]
        exact Or.inl ⟨hs, hv⟩

/-- The engine result with a target, written over the final loop state. -/
theorem dijkstraCore_target (g : Graph) (s t : String) :
    dijkstraCore g s (some t) =
      { distances :=
          (dijkstraLoop g (some t) (g.vertKeys.length + 1) (initState g s)).distances
        previous :=
          (dijkstraLoop g (some t) (g.vertKeys.length + 1) (initState g s)).previous
        path := reconstruct_path
          (dijkstraLoop g (some t) (g.vertKeys.length + 1) (initState g s)).previous
          s t
        total :=
          if reconstruct_path
              (dijkstraLoop g (some t) (g.vertKeys.length + 1)
                (initState g s)).previous s t = [] then none
          else some (dget
            (dijkstraLoop g (some t) (g.vertKeys.length + 1)
              (initState g s)).distances t)
        steps :=
          (dijkstraLoop g (some t) (g.vertKeys.length + 1) (initState g s)).steps }
      := rfl

/-- C5: in every successful run with a supplied target, if the target is
ever selected as the current vertex (that is, some Step expands it), then
the trace ends with exactly one terminal Step for the target — neighbor =
none, new_distance = none, carrying the final distances dict and a visited
snapshot that ends with the target — no earlier step expands the target, and
no relaxation step for any neighbor of the target is recorded. -/
theorem claim_C5 (g : Graph) (s t : String) (r : DijkstraResult)
    (hr : run_dijkstra g s (some t) = Except.ok r)
    (hsel : ∃ x ∈ r.steps, x.current = t) :
    ∃ pre vfin, r.steps = pre ++ [⟨t, none, none, r.distances, vfin⟩] ∧
      (∀ x ∈ pre, x.current ≠ t) ∧ vfin.getLast? = some t := by
  unfold run_dijkstra at hr
  by_cases hshyp : s ∈ g.vertKeys
  · rw [if_pos hshyp] at hr
    have hr' : dijkstraCore g s (some t) = r := by
      injection hr
    subst hr'
    rw [dijkstraCore_target g s t] at hsel ⊢
    dsimp only at hsel ⊢
    rcases dijkstraLoop_target_hit g t (g.vertKeys.length + 1) (initState g s)
        (by simp [initState]) (by simp [initState]) with
      ⟨hnone, _⟩ | ⟨pre, hsteps, hpre, hlast⟩
    · obtain ⟨x, hx, hxc⟩ := hsel
      exact absurd hxc (hnone x hx)
    · exact ⟨pre,
        (dijkstraLoop g (some t) (g.vertKeys.length + 1) (initState g s)).visited,
        hsteps, hpre, hlast⟩
  · rw [if_neg hshyp] at hr
    cases hr

/-- The two-vertex graph with one arc A -> B of weight 2, used as a witness
input. -/
def gAB : Graph := Graph.empty.add_directed_edge "A" "B" 2

theorem claim_C5_witness :
    run_dijkstra gAB "A" (some "B") = Except.ok (dijkstraCore gAB "A" (some "B")) ∧
    (∃ x ∈ (dijkstraCore gAB "A" (some "B")).steps, x.current = "B") ∧
    ∃ pre vfin, (dijkstraCore gAB "A" (some "B")).steps =
        pre ++ [⟨"B", none, none, (dijkstraCore gAB "A" (some "B")).distances, vfin⟩] ∧
      (∀ x ∈ pre, x.current ≠ "B") ∧ vfin.getLast? = some "B" :=
  ⟨rfl, by decide, claim_C5 gAB "A" "B" _ rfl (by decide)⟩

/-- Pointwise comparison of two distance dicts: every entry of the first is
at most the corresponding entry of the second. -/
def Dle (D E : SDict DVal) : Prop :=
  ∀ v, (dget D v).leb (dget E v) = true

theorem Dle_refl (D : SDict DVal) : Dle D D := fun _ => DVal.leb_refl _

theorem Dle_trans {D E F : SDict DVal} (h1 : Dle D E) (h2 : Dle E F) :
    Dle D F := fun v => DVal.leb_trans (h1 v) (h2 v)

theorem dget_set_self (d : SDict DVal) (k : String) (x : DVal) :
    dget (dictSet d k x) k = x := by
  simp [dget, dictGet_set_self]

theorem dget_set_ne (d : SDict DVal) (k k' : String) (x : DVal)
    (h : k' ≠ k) : dget (dictSet d k x) k' = dget d k' := by
  simp [dget, dictGet_set_ne _ _ _ _ h]

theorem relaxOne_dist_dec (c : String) (st : DState) (q : String × ℤ) :
    Dle (relaxOne c st q).distances st.distances := by
  unfold relaxOne
  split
  · exact Dle_refl _
  · dsimp only
    split
    · intro v
      by_cases hv : v = q.1
      · subst hv
        rw [dget_set_self]
        exact DVal.leb_of_ltb (by assumption)
      · rw [dget_set_ne _ _ _ _ hv]
        exact DVal.leb_refl _
    · exact Dle_refl _

theorem relaxOne_mono (c : String) (st : DState) (q : String × ℤ)
    (hpair : List.Pairwise (fun a b : Step => Dle b.distances a.distances) st.steps)
    (hcur : ∀ x ∈ st.steps, Dle st.distances x.distances) :
    List.Pairwise (fun a b : Step => Dle b.distances a.distances)
        (relaxOne c st q).steps ∧
      ∀ x ∈ (relaxOne c st q).steps,
        Dle (relaxOne c st q).distances x.distances := by
  have hdec := relaxOne_dist_dec c st q
  unfold relaxOne at hdec ⊢
  split at hdec
  · rw [if_pos (by assumption)]
    exact ⟨hpair, hcur⟩
  · rw [if_neg (by assumption)]
    dsimp only at hdec ⊢
    split at hdec
    · rw [if_pos (by assumption)]
      dsimp only
      constructor
      · rw [List.pairwise_append]
        refine ⟨hpair, List.pairwise_singleton _ _, ?_⟩
        intro a ha b hb
        rcases List.mem_singleton.mp hb with rfl
        exact Dle_trans hdec (hcur a ha)
      · intro x hx
        rcases List.mem_append.mp hx with hx' | hx'
        · exact Dle_trans hdec (hcur x hx')
        · rcases List.mem_singleton.mp hx' with rfl
          exact Dle_refl _
    · rw [if_neg (by assumption)]
      dsimp only
      constructor
      · rw [List.pairwise_append]
        refine ⟨hpair, List.pairwise_singleton _ _, ?_⟩
        intro a ha b hb
        rcases List.mem_singleton.mp hb with rfl
        exact hcur a ha
      · intro x hx
        rcases List.mem_append.mp hx with hx' | hx'
        · exact hcur x hx'
        · rcases List.mem_singleton.mp hx' with rfl
          exact Dle_refl _

theorem relaxAll_dist_dec (c : String) :
    ∀ (L : List (String × ℤ)) (st : DState),
      Dle (relaxAll c st L).distances st.distances := by
  intro L
  induction L with
  | nil => intro st; exact Dle_refl _
  | cons q rest ih =>
      intro st
      rw [relaxAll]
      exact Dle_trans (ih _) (relaxOne_dist_dec c st q)

theorem relaxAll_mono (c : String) :
    ∀ (L : List (String × ℤ)) (st : DState),
      List.Pairwise (fun a b : Step => Dle b.distances a.distances) st.steps →
      (∀ x ∈ st.steps, Dle st.distances x.distances) →
      List.Pairwise (fun a b : Step => Dle b.distances a.distances)
          (relaxAll c st L).steps ∧
        ∀ x ∈ (relaxAll c st L).steps,
          Dle (relaxAll c st L).distances x.distances := by
  intro L
  induction L with
  | nil => intro st hpair hcur; exact ⟨hpair, hcur⟩
  | cons q rest ih =>
      intro st hpair hcur
      rw [relaxAll]
      obtain ⟨hp1, hc1⟩ := relaxOne_mono c st q hpair hcur
      exact ih _ hp1 hc1

theorem dijkstraLoop_mono (g : Graph) (tgt : Option String) :
    ∀ (fuel : Nat) (st : DState),
      List.Pairwise (fun a b : Step => Dle b.distances a.distances) st.steps →
      (∀ x ∈ st.steps, Dle st.distances x.distances) →
      List.Pairwise (fun a b : Step => Dle b.distances a.distances)
          (dijkstraLoop g tgt fuel st).steps ∧
        ∀ x ∈ (dijkstraLoop g tgt fuel st).steps,
          Dle (dijkstraLoop g tgt fuel st).distances x.distances := by
  intro fuel
  induction fuel with
  | zero => intro st hpair hcur; exact ⟨hpair, hcur⟩
  | succ n ih =>
      intro st hpair hcur
      rw [dijkstraLoop]
      by_cases hc : st.visited.length < g.vertKeys.length
      · rw [if_pos hc]
        rcases hsel : selectMin g.vertKeys st.visited st.distances with _ | c
        · exact ⟨hpair, hcur⟩
        · dsimp only
          by_cases ht : tgt = some c
          · rw [if_pos ht]
            dsimp only
            constructor
            · rw [List.pairwise_append]
              refine ⟨hpair, List.pairwise_singleton _ _, ?_⟩
              intro a ha b hb
              rcases List.mem_singleton.mp hb with rfl
              exact hcur a ha
            · intro x hx
              rcases List.mem_append.mp hx with hx' | hx'
              · exact hcur x hx'
              · rcases List.mem_singleton.mp hx' with rfl
                exact Dle_refl _
          · rw [if_neg ht]
            obtain ⟨hp1, hc1⟩ := relaxAll_mono c (g.neighbors c)
              { st with visited := st.visited ++ [c] } hpair hcur
            exact ih _ hp1 hc1
      · rw [if_neg hc]
        exact ⟨hpair, hcur⟩

/-- The engine result without a target, written over the final loop state. -/
theorem dijkstraCore_none (g : Graph) (s : String) :
    dijkstraCore g s none =
      { distances :=
          (dijkstraLoop g none (g.vertKeys.length + 1) (initState g s)).distances
        previous :=
          (dijkstraLoop g none (g.vertKeys.length + 1) (initState g s)).previous
        path := []
        total := none
        steps :=
          (dijkstraLoop g none (g.vertKeys.length + 1) (initState g s)).steps }
      := rfl

/-- C10: in every successful run, tentative distances never increase: for
every vertex, its entry in the distances snapshot of a later Step is at most
its entry in any earlier Step (`List.Pairwise` over the trace, with `Dle`
the pointwise comparison of distance dicts), and the final distances dict of
the result is pointwise at most every snapshot of the trace. -/
theorem claim_C10 (g : Graph) (s : String) (tgt : Option String)
    (r : DijkstraResult) (hr : run_dijkstra g s tgt = Except.ok r) :
    List.Pairwise (fun a b : Step => Dle b.distances a.distances) r.steps ∧
      ∀ x ∈ r.steps, Dle r.distances x.distances := by
  unfold run_dijkstra at hr
  by_cases hshyp : s ∈ g.vertKeys
  · rw [if_pos hshyp] at hr
    have hr' : dijkstraCore g s tgt = r := by injection hr
    subst hr'
    have hbase := dijkstraLoop_mono g tgt (g.vertKeys.length + 1) (initState g s)
      (by simp [initState]) (by simp [initState])
    cases tgt with
    | none => rw [dijkstraCore_none g s]; exact hbase
    | some t => rw [dijkstraCore_target g s t]; exact hbase
  · rw [if_neg hshyp] at hr
    cases hr

theorem claim_C10_witness :
    run_dijkstra gAB "A" none = Except.ok (dijkstraCore gAB "A" none) ∧
    List.Pairwise (fun a b : Step => Dle b.distances a.distances)
        (dijkstraCore gAB "A" none).steps ∧
      ∀ x ∈ (dijkstraCore gAB "A" none).steps,
        Dle (dijkstraCore gAB "A" none).distances x.distances :=
  ⟨rfl, claim_C10 gAB "A" none _ rfl⟩

/-- The loop invariant of `run_dijkstra` (for nonnegative weights): the
visited list has no duplicates and contains only vertices; every visited
vertex has a distance at most that of every unvisited vertex; every visited
vertex other than a hit target has all its outgoing arcs relaxed; the source
stays at distance 0; all distances are nonnegative; and every predecessor
entry corresponds to a genuine relaxed arc. -/
structure LoopInv (g : Graph) (source : String) (tgt : Option String)
    (st : DState) : Prop where
  nodup : st.visited.Nodup
  vmem : ∀ v ∈ st.visited, v ∈ g.vertKeys
  minvis : ∀ x ∈ st.visited, ∀ y ∈ g.vertKeys, y ∉ st.visited →
    (dget st.distances x).leb (dget st.distances y) = true
  relaxed : ∀ u ∈ st.visited, tgt ≠ some u → ∀ q ∈ g.neighbors u,
    (dget st.distances q.1).leb ((dget st.distances u).add q.2) = true
  src0 : dget st.distances source = .fin 0
  nonneg : ∀ v, (dget st.distances v).Nonneg
  prevOk : ∀ v u, dictGet st.previous v = some (some u) →
    u ∈ st.visited ∧ ∃ w, dictGet (g.neighbors u) v = some w ∧
      dget st.distances v = (dget st.distances u).add w

/-- The invariant in force during the relaxation phase of one iteration
expanding `c`: the visited list already contains `c`, `c` carries the
largest visited distance, and all visited vertices except `c` are fully
relaxed. -/
structure MInv (g : Graph) (source : String) (tgt : Option String)
    (c : String) (st : DState) : Prop where
  nodup : st.visited.Nodup
  vmem : ∀ v ∈ st.visited, v ∈ g.vertKeys
  cmem : c ∈ st.visited
  minvis : ∀ x ∈ st.visited, ∀ y ∈ g.vertKeys, y ∉ st.visited →
    (dget st.distances x).leb (dget st.distances y) = true
  cmax : ∀ x ∈ st.visited,
    (dget st.distances x).leb (dget st.distances c) = true
  relaxedOld : ∀ u ∈ st.visited, u ≠ c → tgt ≠ some u → ∀ q ∈ g.neighbors u,
    (dget st.distances q.1).leb ((dget st.distances u).add q.2) = true
  src0 : dget st.distances source = .fin 0
  nonneg : ∀ v, (dget st.distances v).Nonneg
  prevOk : ∀ v u, dictGet st.previous v = some (some u) →
    u ∈ st.visited ∧ ∃ w, dictGet (g.neighbors u) v = some w ∧
      dget st.distances v = (dget st.distances u).add w

theorem relaxOne_minv {g : Graph} {source : String} {tgt : Option String}
    {c : String} {st : DState} {q : String × ℤ}
    (hq1 : dictGet (g.neighbors c) q.1 = some q.2) (hq3 : 0 ≤ q.2)
    (hinv : MInv g source tgt c st) :
    MInv g source tgt c (relaxOne c st q) ∧
    (∀ v ∈ st.visited,
      dget (relaxOne c st q).distances v = dget st.distances v) ∧
    (dget (relaxOne c st q).distances q.1).leb
      ((dget (relaxOne c st q).distances c).add q.2) = true := by
  by_cases hvis : q.1 ∈ st.visited
  · have heq : relaxOne c st q = st := by
      unfold relaxOne
      rw [if_pos hvis]
    rw [heq]
    refine ⟨hinv, fun v _ => rfl, ?_⟩
    exact DVal.leb_trans (hinv.cmax q.1 hvis) (DVal.leb_add_self hq3)
  · by_cases hlt : ((dget st.distances c).add q.2).ltb
        (dget st.distances q.1) = true
    · have heq : relaxOne c st q =
          { st with
            distances := dictSet st.distances q.1
              ((dget st.distances c).add q.2)
            previous := dictSet st.previous q.1 (some c)
            steps := st.steps ++ [⟨c, some q.1,
              some ((dget st.distances c).add q.2),
              dictSet st.distances q.1 ((dget st.distances c).add q.2),
              st.visited⟩] } := by
        unfold relaxOne
        rw [if_neg hvis]
        dsimp only
        rw [if_pos hlt]
      have hcq : c ≠ q.1 := fun hh => hvis (hh ▸ hinv.cmem)
      have hfrozen : ∀ v ∈ st.visited,
          dget (dictSet st.distances q.1 ((dget st.distances c).add q.2)) v
            = dget st.distances v := by
        intro v hv
        exact dget_set_ne _ _ _ _ (fun hh => hvis (hh ▸ hv))
      have haltnn : ((dget st.distances c).add q.2).Nonneg :=
        (hinv.nonneg c).add hq3
      rw [heq]
      refine ⟨?_, hfrozen, ?_⟩
      · refine ⟨hinv.nodup, hinv.vmem, hinv.cmem, ?_, ?_, ?_, ?_, ?_, ?_⟩
        · intro x hx y hy hny
          rw [hfrozen x hx]
          by_cases hyq : y = q.1
          · subst hyq
            rw [dget_set_self]
            exact DVal.leb_trans (hinv.cmax x hx) (DVal.leb_add_self hq3)
          · rw [dget_set_ne _ _ _ _ hyq]
            exact hinv.minvis x hx y hy hny
        · intro x hx
          rw [hfrozen x hx, hfrozen c hinv.cmem]
          exact hinv.cmax x hx
        · intro u hu hune htgt q' hq'
          rw [hfrozen u hu]
          have hd : (dget (dictSet st.distances q.1
              ((dget st.distances c).add q.2)) q'.1).leb
                (dget st.distances q'.1) = true := by
            by_cases hq'q : q'.1 = q.1
            · rw [hq'q, dget_set_self]
              exact DVal.leb_of_ltb hlt
            · rw [dget_set_ne _ _ _ _ hq'q]
              exact DVal.leb_refl _
          exact DVal.leb_trans hd (hinv.relaxedOld u hu hune htgt q' hq')
        · by_cases hsq : source = q.1
          · exfalso
            have h0 : dget st.distances q.1 = .fin 0 := by
              rw [← hsq]
              exact hinv.src0
            rw [h0] at hlt
            have hnl := DVal.not_ltb_zero_of_nonneg haltnn
            rw [hlt] at hnl
            simp at hnl
          · rw [dget_set_ne _ _ _ _ hsq]
            exact hinv.src0
        · intro v
          by_cases hvq : v = q.1
          · subst hvq
            rw [dget_set_self]
            exact haltnn
          · rw [dget_set_ne _ _ _ _ hvq]
            exact hinv.nonneg v
        · intro v u hvu
          by_cases hvq : v = q.1
          · subst hvq
            rw [dictGet_set_self] at hvu
            obtain rfl : c = u := by
              injection hvu with h'
              injection h'
            refine ⟨hinv.cmem, q.2, hq1, ?_⟩
            rw [dget_set_self, hfrozen c hinv.cmem]
          · rw [dictGet_set_ne _ _ _ _ hvq] at hvu
            obtain ⟨hu, w, hw, heq'⟩ := hinv.prevOk v u hvu
            refine ⟨hu, w, hw, ?_⟩
            rw [dget_set_ne _ _ _ _ hvq, hfrozen u hu]
            exact heq'
      · rw [dget_set_self,
          dget_set_ne _ _ _ _ (fun hh : c = q.1 => hvis (hh ▸ hinv.cmem))]
        exact DVal.leb_refl _
    · have heq : relaxOne c st q =
          { st with steps := st.steps ++
            [⟨c, some q.1, none, st.distances, st.visited⟩] } := by
        unfold relaxOne
        rw [if_neg hvis]
        dsimp only
        rw [if_neg hlt]
      rw [heq]
      refine ⟨⟨hinv.nodup, hinv.vmem, hinv.cmem, hinv.minvis, hinv.cmax,
        hinv.relaxedOld, hinv.src0, hinv.nonneg, hinv.prevOk⟩,
        fun v _ => rfl, ?_⟩
      exact DVal.leb_of_not_ltb (Bool.of_not_eq_true hlt)

theorem relaxAll_minv {g : Graph} {source : String} {tgt : Option String}
    {c : String} :
    ∀ (L : List (String × ℤ)) (st : DState),
      (∀ q ∈ L, dictGet (g.neighbors c) q.1 = some q.2 ∧ 0 ≤ q.2) →
      MInv g source tgt c st →
      MInv g source tgt c (relaxAll c st L) ∧
      (∀ v ∈ st.visited,
        dget (relaxAll c st L).distances v = dget st.distances v) ∧
      (∀ q ∈ L, (dget (relaxAll c st L).distances q.1).leb
        ((dget (relaxAll c st L).distances c).add q.2) = true) := by
  intro L
  induction L with
  | nil =>
      intro st _ hinv
      exact ⟨hinv, fun v _ => rfl, fun q hq => absurd hq (List.not_mem_nil q)⟩
  | cons q rest ih =>
      intro st hL hinv
      obtain ⟨hq1, hq3⟩ := hL q (List.mem_cons_self _ _)
      obtain ⟨hinv1, hfro1, hrel1⟩ := relaxOne_minv hq1 hq3 hinv
      have hvis1 : (relaxOne c st q).visited = st.visited :=
        relaxOne_visited c st q
      obtain ⟨hinv2, hfro2, hrel2⟩ := ih (relaxOne c st q)
        (fun q' hq' => hL q' (List.mem_cons_of_mem _ hq')) hinv1
      rw [relaxAll]
      have hfro : ∀ v ∈ st.visited,
          dget (relaxAll c (relaxOne c st q) rest).distances v
            = dget st.distances v := by
        intro v hv
        rw [hfro2 v (hvis1 ▸ hv), hfro1 v hv]
      refine ⟨hinv2, hfro, ?_⟩
      intro q' hq'
      rcases List.mem_cons.mp hq' with heqq | hq''
      · rw [heqq]
        have hdec : Dle (relaxAll c (relaxOne c st q) rest).distances
            (relaxOne c st q).distances := relaxAll_dist_dec c rest _
        have hcfro : dget (relaxAll c (relaxOne c st q) rest).distances c
            = dget (relaxOne c st q).distances c :=
          hfro2 c (hvis1 ▸ hinv.cmem)
        rw [hcfro]
        exact DVal.leb_trans (hdec q.1) hrel1
      · exact hrel2 q' hq''

/-- Every pair of the neighbor dict of a vertex of a well-formed graph with
nonnegative weights looks itself up and carries a nonnegative weight. -/
theorem neighbors_facts {g : Graph} (hWf : g.Wf) (hNN : g.NonnegW)
    (c : String) :
    ∀ q ∈ g.neighbors c, dictGet (g.neighbors c) q.1 = some q.2 ∧
      q.1 ∈ g.vertKeys ∧ 0 ≤ q.2 := by
  intro q hq
  unfold Graph.neighbors at hq ⊢
  cases hadj : dictGet g.adjacency c with
  | none =>
      rw [hadj] at hq
      simp at hq
  | some inner =>
      rw [hadj] at hq
      simp only [Option.getD_some] at hq ⊢
      have hmem : (c, inner) ∈ g.adjacency := dictGet_mem hadj
      obtain ⟨_, hnd, hks⟩ := hWf.2.2 (c, inner) hmem
      exact ⟨dictGet_of_mem_nodup hq hnd, hks q hq, hNN (c, inner) hmem q hq⟩

/-- Selecting a vertex turns the loop invariant into the relaxation-phase
invariant for the grown visited list. -/
theorem LoopInv.select {g : Graph} {source : String} {tgt : Option String}
    {st : DState} {c : String} (hinv : LoopInv g source tgt st)
    (hsel : selectMin g.vertKeys st.visited st.distances = some c) :
    MInv g source tgt c { st with visited := st.visited ++ [c] } := by
  have hcv : c ∉ st.visited := selectMin_not_vis hsel
  have hck : c ∈ g.vertKeys := selectMin_mem hsel
  have hmin := selectMin_min hsel
  refine ⟨?_, ?_, ?_, ?_, ?_, ?_, hinv.src0, hinv.nonneg, ?_⟩
  · rw [List.nodup_append]
    exact ⟨hinv.nodup, List.nodup_singleton c,
      fun a ha hb => hcv ((List.mem_singleton.mp hb) ▸ ha)⟩
  · intro v hv
    rcases List.mem_append.mp hv with hv' | hv'
    · exact hinv.vmem v hv'
    · exact (List.mem_singleton.mp hv') ▸ hck
  · exact List.mem_append_right _ (List.mem_singleton_self c)
  · intro x hx y hy hny
    have hny' : y ∉ st.visited :=
      fun hh => hny (List.mem_append_left _ hh)
    have hnyc : y ≠ c :=
      fun hh => hny (List.mem_append_right _ (hh ▸ List.mem_singleton_self c))
    rcases List.mem_append.mp hx with hx' | hx'
    · exact hinv.minvis x hx' y hy hny'
    · rw [List.mem_singleton.mp hx']
      exact hmin y hy hny'
  · intro x hx
    rcases List.mem_append.mp hx with hx' | hx'
    · exact hinv.minvis x hx' c hck hcv
    · rw [List.mem_singleton.mp hx']
      exact DVal.leb_refl _
  · intro u hu hune htgt q hq
    rcases List.mem_append.mp hu with hu' | hu'
    · exact hinv.relaxed u hu' htgt q hq
    · exact absurd (List.mem_singleton.mp hu') hune
  · intro v u hvu
    obtain ⟨hu, hrest⟩ := hinv.prevOk v u hvu
    exact ⟨List.mem_append_left _ hu, hrest⟩

/-- After an early target exit, the relaxation-phase invariant gives back
the loop invariant (the unrelaxed target is exempted by the target guard). -/
theorem MInv.toLoopInv_target {g : Graph} {source : String} {c : String}
    {st : DState} (m : MInv g source (some c) c st) :
    LoopInv g source (some c) st := by
  refine ⟨m.nodup, m.vmem, m.minvis, ?_, m.src0, m.nonneg, m.prevOk⟩
  intro u hu htgt q hq
  have hune : u ≠ c := fun hh => htgt (hh ▸ rfl)
  exact m.relaxedOld u hu hune htgt q hq

/-- After the relaxation of all neighbors of the selected vertex, the loop
invariant holds again. -/
theorem MInv.toLoopInv {g : Graph} {source : String} {tgt : Option String}
    {c : String} {st : DState} (m : MInv g source tgt c st)
    (hnew : ∀ q ∈ g.neighbors c, (dget st.distances q.1).leb
      ((dget st.distances c).add q.2) = true) :
    LoopInv g source tgt st := by
  refine ⟨m.nodup, m.vmem, m.minvis, ?_, m.src0, m.nonneg, m.prevOk⟩
  intro u hu htgt q hq
  by_cases huc : u = c
  · subst huc
    exact hnew q hq
  · exact m.relaxedOld u hu huc htgt q hq

/-- The loop invariant holds of the freshly initialized state. -/
theorem loopInv_init (g : Graph) (source : String) (tgt : Option String) :
    LoopInv g source tgt (initState g source) := by
  refine ⟨List.nodup_nil, ?_, ?_, ?_, ?_, ?_, ?_⟩
  · intro v hv; cases hv
  · intro x hx; cases hx
  · intro u hu; cases hu
  · show dget (initD g.vertKeys source) source = .fin 0
    rw [dget_initD]
    simp
  · intro v
    show (dget (initD g.vertKeys source) v).Nonneg
    rw [dget_initD]
    by_cases hv : v = source <;> simp [hv, DVal.Nonneg]
  · intro v u hvu
    have h2 : dictGet (initP g.vertKeys) v = some (some u) := hvu
    rcases dictGet_initP g.vertKeys v with h | h <;> rw [h] at h2 <;> simp at h2

theorem dijkstraLoop_loopInv {g : Graph} {source : String}
    {tgt : Option String} (hWf : g.Wf) (hNN : g.NonnegW) :
    ∀ (fuel : Nat) (st : DState), LoopInv g source tgt st →
      LoopInv g source tgt (dijkstraLoop g tgt fuel st) := by
  intro fuel
  induction fuel with
  | zero => intro st h; exact h
  | succ n ih =>
      intro st h
      rw [dijkstraLoop]
      by_cases hc : st.visited.length < g.vertKeys.length
      · rw [if_pos hc]
        rcases hsel : selectMin g.vertKeys st.visited st.distances with _ | c
        · exact h
        · dsimp only
          have hm := h.select hsel
          by_cases ht : tgt = some c
          · rw [if_pos ht]
            subst ht
            have hm' := hm.toLoopInv_target
            exact ⟨hm'.nodup, hm'.vmem, hm'.minvis, hm'.relaxed, hm'.src0,
              hm'.nonneg, hm'.prevOk⟩
          · rw [if_neg ht]
            apply ih
            obtain ⟨hm2, _, hnew⟩ := relaxAll_minv (g.neighbors c)
              { st with visited := st.visited ++ [c] }
              (fun q hq =>
                ⟨(neighbors_facts hWf hNN c q hq).1,
                 (neighbors_facts hWf hNN c q hq).2.2⟩)
              hm
            exact hm2.toLoopInv hnew
      · rw [if_neg hc]
        exact h

/-- Whenever the run never takes the early target exit (observable as: no
recorded Step expands the target; vacuous when no target is supplied), the
loop runs to natural termination: every vertex left unvisited at the end
has infinite distance (the fuel bound is one more than the number of
vertices still to visit). -/
theorem dijkstraLoop_complete {g : Graph} (hknd : g.vertKeys.Nodup)
    (tgt : Option String) :
    ∀ (fuel : Nat) (st : DState), st.visited.Nodup →
      (∀ v ∈ st.visited, v ∈ g.vertKeys) →
      g.vertKeys.length + 1 ≤ fuel + st.visited.length →
      (∀ x ∈ (dijkstraLoop g tgt fuel st).steps, some x.current ≠ tgt) →
      ∀ v ∈ g.vertKeys, v ∉ (dijkstraLoop g tgt fuel st).visited →
        dget (dijkstraLoop g tgt fuel st).distances v = .inf := by
  intro fuel
  induction fuel with
  | zero =>
      intro st hnd hsub hfuel hns v hv hnv
      exfalso
      have h1 : st.visited.toFinset.card = st.visited.length :=
        List.toFinset_card_of_nodup hnd
      have h2 : st.visited.toFinset ⊆ g.vertKeys.toFinset := by
        intro x hx
        exact List.mem_toFinset.mpr (hsub x (List.mem_toFinset.mp hx))
      have h3 := Finset.card_le_card h2
      have h4 : g.vertKeys.toFinset.card ≤ g.vertKeys.length :=
        g.vertKeys.toFinset_card_le
      omega
  | succ n ih =>
      intro st hnd hsub hfuel hns v hv hnv
      rw [dijkstraLoop] at hns hnv ⊢
      by_cases hc : st.visited.length < g.vertKeys.length
      · rw [if_pos hc] at hns hnv ⊢
        rcases hsel : selectMin g.vertKeys st.visited st.distances with _ | c
        · rw [hsel] at hnv
          dsimp only at hnv ⊢
          exact selectMin_none_char hsel v hv hnv
        · rw [hsel] at hns hnv
          dsimp only at hns hnv ⊢
          by_cases htc : tgt = some c
          · exfalso
            rw [if_pos htc] at hns
            dsimp only at hns
            exact (hns ⟨c, none, none, st.distances, st.visited ++ [c]⟩
              (List.mem_append_right _ (List.mem_singleton_self _))) htc.symm
          · rw [if_neg htc] at hns hnv ⊢
            have hvis2 : (relaxAll c { st with visited := st.visited ++ [c] }
                (g.neighbors c)).visited = st.visited ++ [c] :=
              relaxAll_visited c (g.neighbors c) _
            apply ih _ _ _ _ hns v hv hnv
            · rw [hvis2, List.nodup_append]
              exact ⟨hnd, List.nodup_singleton c,
                fun a ha hb => (selectMin_not_vis hsel)
                  ((List.mem_singleton.mp hb) ▸ ha)⟩
            · rw [hvis2]
              intro x hx
              rcases List.mem_append.mp hx with hx' | hx'
              · exact hsub x hx'
              · exact (List.mem_singleton.mp hx') ▸ selectMin_mem hsel
            · rw [hvis2, List.length_append, List.length_singleton]
              omega
      · rw [if_neg hc] at hnv ⊢
        exfalso
        have h1 : st.visited.toFinset.card = st.visited.length :=
          List.toFinset_card_of_nodup hnd
        have h2 : st.visited.toFinset ⊆ g.vertKeys.toFinset := by
          intro x hx
          exact List.mem_toFinset.mpr (hsub x (List.mem_toFinset.mp hx))
        have h5 : g.vertKeys.toFinset.card = g.vertKeys.length :=
          List.toFinset_card_of_nodup hknd
        have h6 : g.vertKeys.toFinset = st.visited.toFinset := by
          refine (Finset.eq_of_subset_of_card_le h2 ?_).symm
          omega
      -- every vertex is visited, contradicting hnv
        exact hnv (List.mem_toFinset.mp (h6 ▸ List.mem_toFinset.mpr hv))

/-- C1, amended: the no-further-relaxation law holds at termination for
every arc of the graph, for every run that does not take the early target
exit — formalized as: no Step of the trace expands the target, which is
vacuously true for every call without a target and also holds whenever the
supplied target is unknown or unreachable, so it is never selected.  (As
originally stated, with a supplied target that is reached, the claim fails:
see the counterexample.) -/
theorem claim_C1 (g : Graph) (s : String) (tgt : Option String)
    (hWf : g.Wf) (hNN : g.NonnegW) (hs : s ∈ g.vertKeys)
    (r : DijkstraResult) (hr : run_dijkstra g s tgt = Except.ok r)
    (hnoexit : ∀ x ∈ r.steps, some x.current ≠ tgt) :
    ∀ p ∈ g.adjacency, ∀ q ∈ p.2,
      (dget r.distances q.1).leb ((dget r.distances p.1).add q.2) = true := by
  unfold run_dijkstra at hr
  rw [if_pos hs] at hr
  have hr' : dijkstraCore g s tgt = r := by injection hr
  subst hr'
  have hdist : (dijkstraCore g s tgt).distances =
      (dijkstraLoop g tgt (g.vertKeys.length + 1) (initState g s)).distances := by
    cases tgt <;> rfl
  have hsteps : (dijkstraCore g s tgt).steps =
      (dijkstraLoop g tgt (g.vertKeys.length + 1) (initState g s)).steps := by
    cases tgt <;> rfl
  rw [hsteps] at hnoexit
  rw [hdist]
  intro p hp q hq
  have hInv := @dijkstraLoop_loopInv g s tgt hWf hNN
    (g.vertKeys.length + 1) (initState g s) (loopInv_init g s tgt)
  have hpk : p.1 ∈ g.vertKeys := (hWf.2.2 p hp).1
  by_cases hu : p.1 ∈
      (dijkstraLoop g tgt (g.vertKeys.length + 1) (initState g s)).visited
  · have htgt : tgt ≠ some p.1 := by
      cases tgt with
      | none => simp
      | some t =>
          rcases dijkstraLoop_target_hit g t (g.vertKeys.length + 1)
              (initState g s) (by simp [initState]) (by simp [initState]) with
            ⟨_, htnv⟩ | ⟨pre, hst, _, _⟩
          · intro hh
            injection hh with hh'
            exact htnv (hh' ▸ hu)
          · exfalso
            have hmem : (⟨t, none, none,
                (dijkstraLoop g (some t) (g.vertKeys.length + 1)
                  (initState g s)).distances,
                (dijkstraLoop g (some t) (g.vertKeys.length + 1)
                  (initState g s)).visited⟩ : Step) ∈
                (dijkstraLoop g (some t) (g.vertKeys.length + 1)
                  (initState g s)).steps := by
              rw [hst]
              exact List.mem_append_right _ (List.mem_singleton_self _)
            exact hnoexit _ hmem rfl
    have hnb : g.neighbors p.1 = p.2 := by
      unfold Graph.neighbors
      rw [dictGet_of_mem_nodup hp hWf.2.1]
      rfl
    exact hInv.relaxed p.1 hu htgt q (hnb ▸ hq)
  · have hinf : dget (dijkstraLoop g tgt (g.vertKeys.length + 1)
        (initState g s)).distances p.1 = .inf :=
      dijkstraLoop_complete hWf.1 tgt (g.vertKeys.length + 1) (initState g s)
        (by simp [initState]) (by simp [initState]) (by simp [initState])
        hnoexit p.1 hpk hu
    rw [hinf]
    have hadd : DVal.inf.add q.2 = .inf := rfl
    rw [hadd]
    exact DVal.leb_inf _

theorem claim_C1_witness :
    gAB.Wf ∧ gAB.NonnegW ∧ "A" ∈ gAB.vertKeys ∧
    run_dijkstra gAB "A" (some "Z")
      = Except.ok (dijkstraCore gAB "A" (some "Z")) ∧
    (∀ x ∈ (dijkstraCore gAB "A" (some "Z")).steps,
      some x.current ≠ some "Z") ∧
    ∀ p ∈ gAB.adjacency, ∀ q ∈ p.2,
      (dget (dijkstraCore gAB "A" (some "Z")).distances q.1).leb
        ((dget (dijkstraCore gAB "A" (some "Z")).distances p.1).add q.2)
        = true :=
  ⟨by decide, by decide, by decide, rfl, by decide,
   claim_C1 gAB "A" (some "Z") (by decide) (by decide) (by decide) _ rfl
     (by decide)⟩

/-- The counterexample graph for C1 as stated: arcs A -> T (weight 0),
A -> B (weight 5), B -> C (weight 1); run from A with target T. -/
def cexG1 : Graph :=
  ((Graph.empty.add_directed_edge "A" "T" 0).add_directed_edge
    "A" "B" 5).add_directed_edge "B" "C" 1

/-- C1 counterexample: on the nonnegative-weight graph `cexG1` with known
source A, the run with target T terminates early (T is selected right after
A), leaving the arc (B, C) unrelaxed: C is reachable from A, yet the final
distances have dist C = inf > dist B + weight(B,C) = 6, so the claimed
inequality is false at this input. -/
theorem claim_C1_cex :
    cexG1.Wf ∧ cexG1.NonnegW ∧ "A" ∈ cexG1.vertKeys ∧
    Reachable cexG1 "A" "C" ∧
    dictGet (cexG1.neighbors "B") "C" = some 1 ∧
    run_dijkstra cexG1 "A" (some "T") =
      Except.ok (dijkstraCore cexG1 "A" (some "T")) ∧
    (dget (dijkstraCore cexG1 "A" (some "T")).distances "C").leb
      ((dget (dijkstraCore cexG1 "A" (some "T")).distances "B").add 1)
      = false :=
  ⟨by decide, by decide, by decide,
   @Reachable.head cexG1 "A" "B" "C" (by decide)
     (@Reachable.head cexG1 "B" "C" "C" (by decide) (Reachable.refl "C")),
   by decide, rfl, by decide⟩

theorem pathWeight_cons_cons (g : Graph) (a b : String) (rest : List String) :
    pathWeight g (a :: b :: rest) = wgt g a b + pathWeight g (b :: rest) := rfl

theorem pathWeight_concat (g : Graph) :
    ∀ (m : List String) (a b : String), m.getLast? = some a →
      pathWeight g (m ++ [b]) = pathWeight g m + wgt g a b := by
  intro m
  induction m with
  | nil => intro a b h; cases h
  | cons a0 m' ih =>
      intro a b h
      cases m' with
      | nil =>
          obtain rfl : a0 = a := by simpa using h
          show pathWeight g [a0, b] = pathWeight g [a0] + wgt g a0 b
          simp [pathWeight, pathWeight_cons_cons]
      | cons a1 m'' =>
          have h' : (a1 :: m'').getLast? = some a := by
            rw [List.getLast?_cons_cons] at h
            exact h
          rw [List.cons_append, List.cons_append, pathWeight_cons_cons,
            ← List.cons_append, ih a b h', pathWeight_cons_cons]
          ring

/-- The accumulator form of the backward walk: it either returns the
accumulator untouched (fuel exhaustion) or appends a predecessor chain
starting at the current vertex. -/
theorem reconstructAux_spec (P : SDict (Option String)) (source : String) :
    ∀ (fuel : Nat) (cur : String) (acc : List String),
      reconstructAux P source fuel cur acc = acc ∨
      ∃ tail, reconstructAux P source fuel cur acc = acc ++ cur :: tail ∧
        List.Chain' (fun a b => dictGet P a = some (some b)) (cur :: tail) := by
  intro fuel
  induction fuel with
  | zero => intro cur acc; exact Or.inl rfl
  | succ n ih =>
      intro cur acc
      rw [reconstructAux]
      by_cases hcs : cur = source
      · rw [if_pos hcs]
        exact Or.inr ⟨[], rfl, List.chain'_singleton _⟩
      · rw [if_neg hcs]
        cases hP : dictGet P cur with
        | none => exact Or.inr ⟨[], rfl, List.chain'_singleton _⟩
        | some op =>
            cases op with
            | none => exact Or.inr ⟨[], rfl, List.chain'_singleton _⟩
            | some nxt =>
                dsimp only
                rcases ih nxt (acc ++ [cur]) with h | ⟨tail, heq, hch⟩
                · refine Or.inr ⟨[], ?_, List.chain'_singleton _⟩
                  rw [h]
                · refine Or.inr ⟨nxt :: tail, ?_, ?_⟩
                  · rw [heq]
                    simp
                  · exact List.chain'_cons.mpr ⟨hP, hch⟩

/-- A non-empty reconstructed path is the reversal of a predecessor chain
from the target down to the source. -/
theorem reconstruct_path_spec (P : SDict (Option String))
    (source target : String) :
    reconstruct_path P source target = [] ∨
    ∃ l, reconstruct_path P source target = l.reverse ∧
      List.Chain' (fun a b => dictGet P a = some (some b)) l ∧
      l.head? = some target ∧ l.getLast? = some source := by
  unfold reconstruct_path
  rcases reconstructAux_spec P source (P.length + 1) target [] with h |
    ⟨tail, heq, hch⟩
  · left
    rw [h]
    simp
  · rw [heq]
    simp only [List.nil_append]
    by_cases hlast : (target :: tail).getLast? = some source
    · rw [if_pos hlast]
      exact Or.inr ⟨target :: tail, rfl, hch, rfl, hlast⟩
    · rw [if_neg hlast]
      exact Or.inl rfl

/-- Telescoping along a predecessor chain: the distance at the head of the
chain is the distance at its last element plus the summed weight of the
reversed chain. -/
theorem chain_telescope {g : Graph} {D : SDict DVal} {P : SDict (Option String)}
    (hprev : ∀ v u, dictGet P v = some (some u) →
      ∃ w, dictGet (g.neighbors u) v = some w ∧
        dget D v = (dget D u).add w) :
    ∀ l : List String,
      List.Chain' (fun a b => dictGet P a = some (some b)) l →
      ∀ x y, l.head? = some x → l.getLast? = some y →
        dget D x = (dget D y).add (pathWeight g l.reverse) := by
  intro l
  induction l with
  | nil => intro _ x y hx; cases hx
  | cons a l' ih =>
      intro hch x y hx hy
      obtain rfl : a = x := by injection hx
      cases l' with
      | nil =>
          obtain rfl : a = y := by simpa using hy
          show dget D a = (dget D a).add (pathWeight g [a].reverse)
          simp [pathWeight, DVal.add_zero]
      | cons b l'' =>
          rw [List.chain'_cons] at hch
          obtain ⟨hab, hch'⟩ := hch
          have hy' : (b :: l'').getLast? = some y := by
            rw [List.getLast?_cons_cons] at hy
            exact hy
          have hIH := ih hch' b y rfl hy'
          obtain ⟨w, hw, hD⟩ := hprev a b hab
          rw [hD, hIH, DVal.add_add]
          congr 1
          rw [List.reverse_cons, List.reverse_cons,
            pathWeight_concat g _ b a (by rw [List.getLast?_reverse]; rfl)]
          have hwgt : wgt g b a = w := by
            unfold wgt
            rw [hw]
            rfl
          rw [hwgt, List.reverse_cons]

/-- C3: whenever a run with a target returns a non-empty path, the sum of
the arc weights along that path equals the returned total (exactly, in the
exact-arithmetic model). -/
theorem claim_C3 (g : Graph) (s t : String) (hWf : g.Wf) (hNN : g.NonnegW)
    (hs : s ∈ g.vertKeys) (r : DijkstraResult)
    (hr : run_dijkstra g s (some t) = Except.ok r) (hp : r.path ≠ []) :
    r.total = some (.fin (pathWeight g r.path)) := by
  unfold run_dijkstra at hr
  rw [if_pos hs] at hr
  have hr' : dijkstraCore g s (some t) = r := by injection hr
  subst hr'
  rw [dijkstraCore_target g s t] at hp ⊢
  dsimp only at hp ⊢
  have hInv := @dijkstraLoop_loopInv g s (some t) hWf hNN
    (g.vertKeys.length + 1) (initState g s) (loopInv_init g s (some t))
  rcases reconstruct_path_spec
      (dijkstraLoop g (some t) (g.vertKeys.length + 1) (initState g s)).previous
      s t with h | ⟨l, heq, hch, hhead, hlast⟩
  · exact absurd h hp
  · rw [heq] at hp ⊢
    rw [if_neg hp]
    have hprev : ∀ v u,
        dictGet (dijkstraLoop g (some t) (g.vertKeys.length + 1)
          (initState g s)).previous v = some (some u) →
        ∃ w, dictGet (g.neighbors u) v = some w ∧
          dget (dijkstraLoop g (some t) (g.vertKeys.length + 1)
            (initState g s)).distances v =
          (dget (dijkstraLoop g (some t) (g.vertKeys.length + 1)
            (initState g s)).distances u).add w := by
      intro v u hvu
      obtain ⟨_, w, hw, hD⟩ := hInv.prevOk v u hvu
      exact ⟨w, hw, hD⟩
    have htele := chain_telescope hprev l hch t s hhead hlast
    rw [hInv.src0] at htele
    rw [htele]
    have hz : (DVal.fin 0).add (pathWeight g l.reverse)
        = .fin (pathWeight g l.reverse) := by
      show DVal.fin (0 + _) = _
      rw [zero_add]
    rw [hz]

theorem claim_C3_witness :
    gAB.Wf ∧ gAB.NonnegW ∧ "A" ∈ gAB.vertKeys ∧
    run_dijkstra gAB "A" (some "B")
      = Except.ok (dijkstraCore gAB "A" (some "B")) ∧
    (dijkstraCore gAB "A" (some "B")).path ≠ [] ∧
    (dijkstraCore gAB "A" (some "B")).total =
      some (.fin (pathWeight gAB (dijkstraCore gAB "A" (some "B")).path)) :=
  ⟨by decide, by decide, by decide, rfl, by decide,
   claim_C3 gAB "A" "B" (by decide) (by decide) (by decide) _ rfl (by decide)⟩

theorem dictGet_exists_of_mem {α : Type} {d : SDict α} {k : String} {x : α}
    (h : (k, x) ∈ d) : ∃ v, dictGet d k = some v := by
  have hk : k ∈ d.map Prod.fst := List.mem_map.mpr ⟨(k, x), h, rfl⟩
  exact Option.isSome_iff_exists.mp ((dictGet_isSome_iff d k).mpr hk)

/-- Every stored predecessor entry corresponds to an arc of the graph.  This
invariant needs no weight hypothesis at all. -/
def PrevArc (g : Graph) (P : SDict (Option String)) : Prop :=
  ∀ v u, dictGet P v = some (some u) →
    ∃ w, dictGet (g.neighbors u) v = some w

theorem relaxOne_prevArc {g : Graph} {c : String} {st : DState}
    {q : String × ℤ} (hq : q ∈ g.neighbors c)
    (h : PrevArc g st.previous) : PrevArc g (relaxOne c st q).previous := by
  unfold relaxOne
  split
  · exact h
  · dsimp only
    split
    · intro v u hvu
      by_cases hvq : v = q.1
      · subst hvq
        rw [dictGet_set_self] at hvu
        obtain rfl : c = u := by
          injection hvu with h'
          injection h'
        exact @dictGet_exists_of_mem _ _ q.1 q.2 (by simpa using hq)
      · rw [dictGet_set_ne _ _ _ _ hvq] at hvu
        exact h v u hvu
    · exact h

theorem relaxAll_prevArc {g : Graph} {c : String} :
    ∀ (L : List (String × ℤ)) (st : DState),
      (∀ q ∈ L, q ∈ g.neighbors c) → PrevArc g st.previous →
      PrevArc g (relaxAll c st L).previous := by
  intro L
  induction L with
  | nil => intro st _ h; exact h
  | cons q rest ih =>
      intro st hL h
      rw [relaxAll]
      exact ih _ (fun q' hq' => hL q' (List.mem_cons_of_mem _ hq'))
        (relaxOne_prevArc (hL q (List.mem_cons_self _ _)) h)

theorem dijkstraLoop_prevArc {g : Graph} {tgt : Option String} :
    ∀ (fuel : Nat) (st : DState), PrevArc g st.previous →
      PrevArc g (dijkstraLoop g tgt fuel st).previous := by
  intro fuel
  induction fuel with
  | zero => intro st h; exact h
  | succ n ih =>
      intro st h
      rw [dijkstraLoop]
      by_cases hc : st.visited.length < g.vertKeys.length
      · rw [if_pos hc]
        rcases hsel : selectMin g.vertKeys st.visited st.distances with _ | c
        · exact h
        · dsimp only
          by_cases ht : tgt = some c
          · rw [if_pos ht]
            exact h
          · rw [if_neg ht]
            exact ih _ (relaxAll_prevArc (g.neighbors c) _ (fun q hq => hq) h)
      · rw [if_neg hc]
        exact h

theorem prevArc_init (g : Graph) (source : String) :
    PrevArc g (initState g source).previous := by
  intro v u hvu
  have h2 : dictGet (initP g.vertKeys) v = some (some u) := hvu
  rcases dictGet_initP g.vertKeys v with h | h <;> rw [h] at h2 <;> simp at h2

theorem Reachable.snoc {g : Graph} {a b c : String} (h : Reachable g a b)
    (harc : hasArc g b c = true) : Reachable g a c := by
  induction h with
  | refl s => exact Reachable.head harc (Reachable.refl c)
  | head huv _ ih => exact Reachable.head huv (ih harc)

/-- A predecessor chain from the target down to the source witnesses
reachability of the target from the source. -/
theorem chain_reach {g : Graph} {P : SDict (Option String)}
    (hprev : ∀ v u, dictGet P v = some (some u) →
      ∃ w, dictGet (g.neighbors u) v = some w) :
    ∀ l : List String,
      List.Chain' (fun a b => dictGet P a = some (some b)) l →
      ∀ x y, l.head? = some x → l.getLast? = some y → Reachable g y x := by
  intro l
  induction l with
  | nil => intro _ x y hx; cases hx
  | cons a l' ih =>
      intro hch x y hx hy
      obtain rfl : a = x := by injection hx
      cases l' with
      | nil =>
          obtain rfl : a = y := by simpa using hy
          exact Reachable.refl a
      | cons b l'' =>
          rw [List.chain'_cons] at hch
          obtain ⟨hab, hch'⟩ := hch
          have hy' : (b :: l'').getLast? = some y := by
            rw [List.getLast?_cons_cons] at hy
            exact hy
          have hr := ih hch' b y rfl hy'
          obtain ⟨w, hw⟩ := hprev a b hab
          have harc : hasArc g b a = true := by
            unfold hasArc
            rw [hw]
            rfl
          exact hr.snoc harc

theorem mem_vertKeys_of_arc {g : Graph} (hWf : g.Wf) {u v : String} {w : ℤ}
    (h : dictGet (g.neighbors u) v = some w) : v ∈ g.vertKeys := by
  have hm : (v, w) ∈ g.neighbors u := dictGet_mem h
  unfold Graph.neighbors at hm
  cases hadj : dictGet g.adjacency u with
  | none =>
      rw [hadj] at hm
      simp at hm
  | some inner =>
      rw [hadj] at hm
      simp only [Option.getD_some] at hm
      exact (hWf.2.2 (u, inner) (dictGet_mem hadj)).2.2 (v, w) hm

/-- C6: with a known source, a target that is unknown to the graph or not
reachable from the source is not an error: the run succeeds and returns
`path = []`, `total = none` (the backward walk over `previous` cannot reach
the source, because every predecessor chain witnesses reachability). -/
theorem claim_C6 (g : Graph) (s t : String) (hWf : g.Wf)
    (hs : s ∈ g.vertKeys) (ht : t ∉ g.vertKeys ∨ ¬ Reachable g s t) :
    ∃ r, run_dijkstra g s (some t) = Except.ok r ∧
      r.path = [] ∧ r.total = none := by
  have hPrev : PrevArc g
      (dijkstraLoop g (some t) (g.vertKeys.length + 1) (initState g s)).previous :=
    dijkstraLoop_prevArc (g.vertKeys.length + 1) (initState g s)
      (prevArc_init g s)
  have hpath : reconstruct_path
      (dijkstraLoop g (some t) (g.vertKeys.length + 1) (initState g s)).previous
      s t = [] := by
    rcases reconstruct_path_spec
        (dijkstraLoop g (some t) (g.vertKeys.length + 1) (initState g s)).previous
        s t with h | ⟨l, heq, hch, hhead, hlast⟩
    · exact h
    · exfalso
      have hreach : Reachable g s t := chain_reach hPrev l hch t s hhead hlast
      rcases ht with ht' | ht'
      · cases l with
        | nil => cases hhead
        | cons a l' =>
            obtain rfl : a = t := by injection hhead
            cases l' with
            | nil =>
                obtain rfl : a = s := by simpa using hlast
                exact ht' hs
            | cons b l'' =>
                rw [List.chain'_cons] at hch
                obtain ⟨w, hw⟩ := hPrev a b hch.1
                exact ht' (mem_vertKeys_of_arc hWf hw)
      · exact ht' hreach
  refine ⟨dijkstraCore g s (some t), ?_, ?_, ?_⟩
  · unfold run_dijkstra
    rw [if_pos hs]
  · rw [dijkstraCore_target g s t]
    exact hpath
  · rw [dijkstraCore_target g s t]
    dsimp only
    rw [hpath]
    rfl

/-- The two isolated vertices A and E with no edges, the C6 witness graph. -/
def gAE : Graph := (Graph.empty.add_vertex "A" 0 0).add_vertex "E" 0 0

theorem gAE_no_arc (u v : String) : hasArc gAE u v = false := by
  unfold hasArc Graph.neighbors
  have hadj : gAE.adjacency = [("A", []), ("E", [])] := rfl
  rw [hadj]
  by_cases hA : "A" = u <;> by_cases hE : "E" = u <;>
    simp [dictGet, hA, hE]

theorem gAE_reach_eq : ∀ a b : String, Reachable gAE a b → a = b := by
  intro a b h
  induction h with
  | refl s => rfl
  | head harc _ ih =>
      rw [gAE_no_arc] at harc
      simp at harc

theorem claim_C6_witness :
    gAE.Wf ∧ "A" ∈ gAE.vertKeys ∧
    ("E" ∉ gAE.vertKeys ∨ ¬ Reachable gAE "A" "E") ∧
    ∃ r, run_dijkstra gAE "A" (some "E") = Except.ok r ∧
      r.path = [] ∧ r.total = none :=
  ⟨by decide, by decide,
   Or.inr (fun h => absurd (gAE_reach_eq _ _ h) (by decide)),
   claim_C6 gAE "A" "E" (by decide) (by decide)
     (Or.inr (fun h => absurd (gAE_reach_eq _ _ h) (by decide)))⟩
